import Mathlib

/-!
# Datagram payload decoder of `server.c`

A shallow embedding of the `key:value` decoder of `src/server.c`
(`skip_ws`, `parse_key`, `parse_value`, `print_pair` and the pair loop of
`main`) together with theorems about it.

## Representation

* A byte (`char`) is a `Nat`; the character constants of the source are
  written as their ASCII codes: `' '` = 32, `'\t'` = 9, `'\n'` = 10,
  `'\r'` = 13, `':'` = 58, `'"'` = 34, `'\0'` = 0.
* `main` stores the received payload in `buf` and writes `buf[n] = '\0'`.
  A cursor `const char *p` into that buffer is represented by the list of the
  bytes from `*p` up to, and excluding, that final terminator.  Reading `**p`
  is `cur p` (the head, or `0` at the terminator), `(*p)++` is `List.tail`,
  and a pointer difference `*p - start` is a difference of lengths.
* An output parameter (`key`, `val`) is passed in and returned; the returned
  list is the bytes `memcpy` stored before the terminator `key[len] = '\0'`.
  `printf("%s")` reads such an array up to its first NUL (`beforeNul`).
-/

namespace Server

/-- The byte under the cursor, `**p`; the terminator `'\0'` at the end. -/
def cur (p : List Nat) : Nat := p.headD 0

/-- Embedding of `skip_ws` (server.c:16-18):
`while (**p == ' ' || **p == '\t' || **p == '\n' || **p == '\r') (*p)++;` -/
def skip_ws : List Nat → List Nat
  | [] => []
  | c :: r => if c = 32 ∨ c = 9 ∨ c = 10 ∨ c = 13 then skip_ws r else c :: r

/-- The scanning loop of `parse_key` (server.c:26-27):
`while (**p && **p != ':' && **p != ' ' && **p != '\t' && **p != '\n' && **p != '\r') (*p)++;` -/
def key_scan : List Nat → List Nat
  | [] => []
  | c :: r =>
    if c ≠ 0 ∧ c ≠ 58 ∧ c ≠ 32 ∧ c ≠ 9 ∧ c ≠ 10 ∧ c ≠ 13 then key_scan r else c :: r

/-- The scanning loop of the quoted branch of `parse_value` (server.c:47):
`while (**p && **p != '"') (*p)++;` -/
def quote_scan : List Nat → List Nat
  | [] => []
  | c :: r => if c ≠ 0 ∧ c ≠ 34 then quote_scan r else c :: r

/-- The scanning loop of the unquoted branch of `parse_value` (server.c:58-59):
`while (**p && **p != ' ' && **p != '\t' && **p != '\n' && **p != '\r') (*p)++;` -/
def token_scan : List Nat → List Nat
  | [] => []
  | c :: r =>
    if c ≠ 0 ∧ c ≠ 32 ∧ c ≠ 9 ∧ c ≠ 10 ∧ c ≠ 13 then token_scan r else c :: r

/-- Embedding of `parse_key` (server.c:21-37).  The result is the return
code, the cursor `*p` on return and the content of `key` on return. -/
def parse_key (p key : List Nat) (key_sz : Nat) : Int × List Nat × List Nat :=
  let p := skip_ws p
  if cur p = 0 then (0, p, key)
  else
    let start := p
    let p := key_scan p
    if cur p ≠ 58 then (-1, p, key)
    else
      let len := start.length - p.length
      if len = 0 ∨ len ≥ key_sz then (-1, p, key)
      else (1, p.tail, start.take len)

/-- Embedding of `parse_value` (server.c:40-69).  The result is the return
code, the cursor `*p` on return and the content of `val` on return.  The only
call passes `val_sz = sizeof(val) = 2048`, so `val_sz - 1` does not wrap. -/
def parse_value (p val : List Nat) (val_sz : Nat) : Int × List Nat × List Nat :=
  let p := skip_ws p
  if cur p = 0 then (-1, p, val)
  else if cur p = 34 then
    let p := p.tail
    let start := p
    let p := quote_scan p
    if cur p ≠ 34 then (-1, p, val)
    else
      let len := start.length - p.length
      let len := if len ≥ val_sz then val_sz - 1 else len
      (1, p.tail, start.take len)
  else
    let start := p
    let p := token_scan p
    let len := start.length - p.length
    if len = 0 then (-1, p, val)
    else
      let len := if len ≥ val_sz then val_sz - 1 else len
      (1, p, start.take len)

/-- The bytes before the first NUL: the C string that starts at a position, as
`printf("%s")` reads it. -/
def beforeNul (p : List Nat) : List Nat := p.takeWhile (fun c => decide (c ≠ 0))

/-- One field of `print_pair`: the conversion `%-20.20s` applied to a `char`
array, at most 20 bytes of its string (precision 20), padded with spaces on the
right to 20 (width 20, flag `-`). -/
def field20 (s : List Nat) : List Nat :=
  (beforeNul s).take 20 ++ List.replicate (20 - ((beforeNul s).take 20).length) 32

/-- Embedding of `print_pair` (server.c:71-74):
`printf("%-20.20s %-20.20s\n", key, val);`, the bytes written to `stdout`. -/
def print_pair (key val : List Nat) : List Nat :=
  field20 key ++ [32] ++ field20 val ++ [10]

/-- How the pair loop of `main` was left. -/
inductive Outcome where
  /-- Left when `parse_key` returned 0: `break; // end of message`, nothing
  reported. -/
  | done
  /-- Left when `parse_key` returned a negative code: `Invalid key format.` -/
  | invalidKey
  /-- Left when `parse_value` returned a negative code:
  `Invalid value format for key '%s'.` with the key just read. -/
  | invalidValue (key : List Nat)
  deriving DecidableEq, Repr

/-- Embedding of the pair loop of `main` (server.c:133-145) started with the
cursor at `p`: the `(key, val)` arguments of the successive `print_pair`
calls and the way the loop was left.  The first argument bounds the number of
iterations; `none` means the bound was reached. -/
def main_loop : Nat → List Nat → Option (List (List Nat × List Nat) × Outcome)
  | 0, _ => none
  | fuel + 1, p =>
    let rk := parse_key p [] 256
    if rk.1 = 0 then some ([], Outcome.done)
    else if rk.1 < 0 then some ([], Outcome.invalidKey)
    else
      let rv := parse_value rk.2.1 [] 2048
      if rv.1 < 0 then some ([], Outcome.invalidValue rk.2.2)
      else
        match main_loop fuel rv.2.1 with
        | none => none
        | some (ps, o) => some ((rk.2.2, rv.2.2) :: ps, o)

/-- Decoding of one buffer (server.c:132-145): `const char *p = buf;` and the
pair loop.  Every round that continues consumes at least one byte, so
`buf.length + 1` iterations always suffice (`decode_isSome`). -/
def decode (buf : List Nat) : Option (List (List Nat × List Nat) × Outcome) :=
  main_loop (buf.length + 1) buf

/-- The first `n` rounds of the pair loop of `main` (server.c:133-145), each of
them a successful `parse_key` followed by a successful `parse_value`: the pairs
emitted and the cursor at which round `n + 1` starts; `none` when the loop is left
earlier. -/
def rounds : Nat → List Nat → Option (List (List Nat × List Nat) × List Nat)
  | 0, p => some ([], p)
  | n + 1, p =>
    let rk := parse_key p [] 256
    if rk.1 = 0 then none
    else if rk.1 < 0 then none
    else
      let rv := parse_value rk.2.1 [] 2048
      if rv.1 < 0 then none
      else
        match rounds n rv.2.1 with
        | none => none
        | some (ps, q) => some ((rk.2.2, rv.2.2) :: ps, q)

/-- The keys and values of a pair sequence in emission order. -/
def spans : List (List Nat × List Nat) → List (List Nat)
  | [] => []
  | (k, v) :: t => k :: v :: spans t

/-- The byte strings `ss` occur in `buf` one after the other, without overlap:
`buf` is a gap, the first string, a gap, the second string, and so on. -/
def InOrder : List (List Nat) → List Nat → Prop
  | [], _ => True
  | s :: ss, buf => ∃ pre post, buf = pre ++ (s ++ post) ∧ InOrder ss post

/-- The cursor `p2` is reached from the cursor `p1` by moving forward over bytes
none of which is NUL: `p2` is at or after `p1`, and at or before the terminator
that follows `p1`. -/
def Forward (p1 p2 : List Nat) : Prop := ∃ pre, p1 = pre ++ p2 ∧ ∀ c ∈ pre, c ≠ 0

/-- The buffer `k1:v1 k2:v2 ... kn:vn`: the tokens `k:v` joined by a single
space. -/
def joinTokens : List (List Nat × List Nat) → List Nat
  | [] => []
  | [(k, v)] => k ++ 58 :: v
  | (k, v) :: t => k ++ 58 :: v ++ 32 :: joinTokens t

/-- The bytes of an ASCII string literal. -/
def bytes (s : String) : List Nat := s.toList.map Char.toNat

/-- The four bytes `skip_ws` skips: space, tab, line feed, carriage return. -/
def IsWs (c : Nat) : Prop := c = 32 ∨ c = 9 ∨ c = 10 ∨ c = 13

instance (c : Nat) : Decidable (IsWs c) := by unfold IsWs; infer_instance

/-- A byte the key scan steps over: not NUL, not `':'`, not whitespace. -/
def KeyByte (c : Nat) : Prop := c ≠ 0 ∧ c ≠ 58 ∧ ¬ IsWs c

instance (c : Nat) : Decidable (KeyByte c) := by unfold KeyByte; infer_instance

/-- A byte the unquoted value scan steps over: not NUL, not whitespace. -/
def TokByte (c : Nat) : Prop := c ≠ 0 ∧ ¬ IsWs c

instance (c : Nat) : Decidable (TokByte c) := by unfold TokByte; infer_instance

/-- A byte the quoted value scan steps over: not NUL, not `'"'`. -/
def QuotByte (c : Nat) : Prop := c ≠ 0 ∧ c ≠ 34

instance (c : Nat) : Decidable (QuotByte c) := by unfold QuotByte; infer_instance

/-- A byte without any role in the grammar: not whitespace, `':'`, `'"'`
or NUL. -/
def PlainByte (c : Nat) : Prop := c ≠ 0 ∧ c ≠ 58 ∧ c ≠ 34 ∧ ¬ IsWs c

instance (c : Nat) : Decidable (PlainByte c) := by unfold PlainByte; infer_instance

/-- Prefixing one emitted pair to the result of the rest of the loop. -/
def consPair (kv : List Nat × List Nat)
    (res : Option (List (List Nat × List Nat) × Outcome)) :
    Option (List (List Nat × List Nat) × Outcome) :=
  res.map (fun r => (kv :: r.1, r.2))

/-- A valid key: 1..255 bytes, none of them whitespace, `':'` or NUL. -/
def ValidKey (k : List Nat) : Prop :=
  1 ≤ k.length ∧ k.length ≤ 255 ∧ ∀ c ∈ k, KeyByte c

instance (k : List Nat) : Decidable (ValidKey k) := by unfold ValidKey; infer_instance

/-- A valid unquoted value: 1..2047 bytes, none of them whitespace or NUL, the
first one not `'"'`. -/
def ValidUnquoted (v : List Nat) : Prop :=
  1 ≤ v.length ∧ v.length ≤ 2047 ∧ (∀ c ∈ v, TokByte c) ∧ cur v ≠ 34

instance (v : List Nat) : Decidable (ValidUnquoted v) := by
  unfold ValidUnquoted; infer_instance

/-- A well-formed unquoted token `k:v`: the key has 1..255 bytes, the value
1..2047 bytes, and no byte is whitespace, `':'`, `'"'` or NUL. -/
def WellFormedToken (kv : List Nat × List Nat) : Prop :=
  1 ≤ kv.1.length ∧ kv.1.length ≤ 255 ∧ 1 ≤ kv.2.length ∧ kv.2.length ≤ 2047 ∧
    (∀ c ∈ kv.1, PlainByte c) ∧ (∀ c ∈ kv.2, PlainByte c)

instance (kv : List Nat × List Nat) : Decidable (WellFormedToken kv) := by
  unfold WellFormedToken; infer_instance

/-! ## The scanning loops -/

theorem cur_nil : cur [] = 0 := rfl

theorem cur_cons (c : Nat) (r : List Nat) : cur (c :: r) = c := rfl

theorem cur_append_of_ne_nil {a : List Nat} (b : List Nat) (h : a ≠ []) :
    cur (a ++ b) = cur a := by
  cases a with
  | nil => exact absurd rfl h
  | cons c r => rfl

theorem not_isWs_zero : ¬ IsWs 0 := by decide

theorem skip_ws_cons (c : Nat) (r : List Nat) :
    skip_ws (c :: r) = if c = 32 ∨ c = 9 ∨ c = 10 ∨ c = 13 then skip_ws r else c :: r := rfl

theorem key_scan_cons (c : Nat) (r : List Nat) :
    key_scan (c :: r) =
      if c ≠ 0 ∧ c ≠ 58 ∧ c ≠ 32 ∧ c ≠ 9 ∧ c ≠ 10 ∧ c ≠ 13 then key_scan r else c :: r := rfl

theorem quote_scan_cons (c : Nat) (r : List Nat) :
    quote_scan (c :: r) = if c ≠ 0 ∧ c ≠ 34 then quote_scan r else c :: r := rfl

theorem token_scan_cons (c : Nat) (r : List Nat) :
    token_scan (c :: r) =
      if c ≠ 0 ∧ c ≠ 32 ∧ c ≠ 9 ∧ c ≠ 10 ∧ c ≠ 13 then token_scan r else c :: r := rfl

theorem isWs_iff (c : Nat) : IsWs c ↔ (c = 32 ∨ c = 9 ∨ c = 10 ∨ c = 13) := Iff.rfl

theorem quotByte_iff (c : Nat) : QuotByte c ↔ (c ≠ 0 ∧ c ≠ 34) := Iff.rfl

theorem keyByte_iff (c : Nat) :
    KeyByte c ↔ (c ≠ 0 ∧ c ≠ 58 ∧ c ≠ 32 ∧ c ≠ 9 ∧ c ≠ 10 ∧ c ≠ 13) := by
  simp only [KeyByte, IsWs]; omega

theorem tokByte_iff (c : Nat) :
    TokByte c ↔ (c ≠ 0 ∧ c ≠ 32 ∧ c ≠ 9 ∧ c ≠ 10 ∧ c ≠ 13) := by
  simp only [TokByte, IsWs]; omega

theorem skip_ws_append_ws (w r : List Nat) (hw : ∀ c ∈ w, IsWs c) :
    skip_ws (w ++ r) = skip_ws r := by
  induction w with
  | nil => rfl
  | cons c w ih =>
    have hc : IsWs c := hw c (List.mem_cons_self _ _)
    rw [List.cons_append, skip_ws_cons, if_pos ((isWs_iff c).1 hc)]
    exact ih (fun d hd => hw d (List.mem_cons_of_mem _ hd))

theorem skip_ws_of_not_ws (p : List Nat) (h : ¬ IsWs (cur p)) : skip_ws p = p := by
  cases p with
  | nil => rfl
  | cons c r => rw [skip_ws_cons, if_neg (fun h2 => h ((isWs_iff c).2 h2))]

theorem skip_ws_decomp (p : List Nat) :
    ∃ w, p = w ++ skip_ws p ∧ (∀ c ∈ w, IsWs c) ∧ ¬ IsWs (cur (skip_ws p)) := by
  induction p with
  | nil => exact ⟨[], rfl, by simp, not_isWs_zero⟩
  | cons c r ih =>
    by_cases hc : IsWs c
    · obtain ⟨w, hw1, hw2, hw3⟩ := ih
      rw [skip_ws_cons, if_pos ((isWs_iff c).1 hc)]
      refine ⟨c :: w, ?_, ?_, hw3⟩
      · rw [List.cons_append, ← hw1]
      · intro d hd
        rcases List.mem_cons.1 hd with rfl | hd
        · exact hc
        · exact hw2 d hd
    · rw [skip_ws_cons, if_neg (fun h2 => hc ((isWs_iff c).2 h2))]
      exact ⟨[], rfl, by simp, hc⟩

theorem key_scan_append (k r : List Nat) (hk : ∀ c ∈ k, KeyByte c)
    (hr : ¬ KeyByte (cur r)) : key_scan (k ++ r) = r := by
  induction k with
  | nil =>
    cases r with
    | nil => rfl
    | cons c r =>
      rw [List.nil_append, key_scan_cons, if_neg (fun h => hr ((keyByte_iff c).2 h))]
  | cons c k ih =>
    rw [List.cons_append, key_scan_cons,
      if_pos ((keyByte_iff c).1 (hk c (List.mem_cons_self _ _)))]
    exact ih (fun d hd => hk d (List.mem_cons_of_mem _ hd))

theorem key_scan_decomp (p : List Nat) :
    ∃ k, p = k ++ key_scan p ∧ (∀ c ∈ k, KeyByte c) ∧ ¬ KeyByte (cur (key_scan p)) := by
  induction p with
  | nil => exact ⟨[], rfl, by simp, by decide⟩
  | cons c r ih =>
    by_cases hc : KeyByte c
    · obtain ⟨k, hk1, hk2, hk3⟩ := ih
      rw [key_scan_cons, if_pos ((keyByte_iff c).1 hc)]
      refine ⟨c :: k, ?_, ?_, hk3⟩
      · rw [List.cons_append, ← hk1]
      · intro d hd
        rcases List.mem_cons.1 hd with rfl | hd
        · exact hc
        · exact hk2 d hd
    · rw [key_scan_cons, if_neg (fun h => hc ((keyByte_iff c).2 h))]
      exact ⟨[], rfl, by simp, hc⟩

theorem quote_scan_append (q r : List Nat) (hq : ∀ c ∈ q, QuotByte c)
    (hr : ¬ QuotByte (cur r)) : quote_scan (q ++ r) = r := by
  induction q with
  | nil =>
    cases r with
    | nil => rfl
    | cons c r =>
      rw [List.nil_append, quote_scan_cons, if_neg (fun h2 => hr ((quotByte_iff c).2 h2))]
  | cons c q ih =>
    have hc : QuotByte c := hq c (List.mem_cons_self _ _)
    rw [List.cons_append, quote_scan_cons, if_pos ((quotByte_iff c).1 hc)]
    exact ih (fun d hd => hq d (List.mem_cons_of_mem _ hd))

theorem quote_scan_decomp (p : List Nat) :
    ∃ q, p = q ++ quote_scan p ∧ (∀ c ∈ q, QuotByte c) ∧
      ¬ QuotByte (cur (quote_scan p)) := by
  induction p with
  | nil => exact ⟨[], rfl, by simp, by decide⟩
  | cons c r ih =>
    by_cases hc : QuotByte c
    · obtain ⟨q, hq1, hq2, hq3⟩ := ih
      rw [quote_scan_cons, if_pos ((quotByte_iff c).1 hc)]
      refine ⟨c :: q, ?_, ?_, hq3⟩
      · rw [List.cons_append, ← hq1]
      · intro d hd
        rcases List.mem_cons.1 hd with rfl | hd
        · exact hc
        · exact hq2 d hd
    · rw [quote_scan_cons, if_neg (fun h2 => hc ((quotByte_iff c).2 h2))]
      exact ⟨[], rfl, by simp, hc⟩

theorem token_scan_append (t r : List Nat) (ht : ∀ c ∈ t, TokByte c)
    (hr : ¬ TokByte (cur r)) : token_scan (t ++ r) = r := by
  induction t with
  | nil =>
    cases r with
    | nil => rfl
    | cons c r =>
      rw [List.nil_append, token_scan_cons, if_neg (fun h => hr ((tokByte_iff c).2 h))]
  | cons c t ih =>
    rw [List.cons_append, token_scan_cons,
      if_pos ((tokByte_iff c).1 (ht c (List.mem_cons_self _ _)))]
    exact ih (fun d hd => ht d (List.mem_cons_of_mem _ hd))

theorem token_scan_decomp (p : List Nat) :
    ∃ t, p = t ++ token_scan p ∧ (∀ c ∈ t, TokByte c) ∧
      ¬ TokByte (cur (token_scan p)) := by
  induction p with
  | nil => exact ⟨[], rfl, by simp, by decide⟩
  | cons c r ih =>
    by_cases hc : TokByte c
    · obtain ⟨t, ht1, ht2, ht3⟩ := ih
      rw [token_scan_cons, if_pos ((tokByte_iff c).1 hc)]
      refine ⟨c :: t, ?_, ?_, ht3⟩
      · rw [List.cons_append, ← ht1]
      · intro d hd
        rcases List.mem_cons.1 hd with rfl | hd
        · exact hc
        · exact ht2 d hd
    · rw [token_scan_cons, if_neg (fun h => hc ((tokByte_iff c).2 h))]
      exact ⟨[], rfl, by simp, hc⟩

/-! ## `parse_key` and `parse_value` in terms of the scanned spans -/

theorem length_append_sub (k r : List Nat) : (k ++ r).length - r.length = k.length := by
  rw [List.length_append]; omega

/-- The result of `parse_key` once the skipped whitespace and the scanned span are
known. -/
theorem parse_key_of_scan (p key : List Nat) (sz : Nat) (k r : List Nat)
    (hs : skip_ws p = k ++ r) (hscan : key_scan (k ++ r) = r) :
    parse_key p key sz =
      if cur (k ++ r) = 0 then (0, k ++ r, key)
      else if cur r ≠ 58 then (-1, r, key)
      else if k.length = 0 ∨ k.length ≥ sz then (-1, r, key)
      else (1, r.tail, k) := by
  unfold parse_key
  simp only [hs, hscan, length_append_sub, List.take_left]

/-- The result of `parse_value` in quoted mode. -/
theorem parse_value_quoted (p val : List Nat) (sz : Nat) (q r : List Nat)
    (hs : skip_ws p = 34 :: (q ++ r)) (hscan : quote_scan (q ++ r) = r) :
    parse_value p val sz =
      if cur r ≠ 34 then (-1, r, val)
      else (1, r.tail, q.take (if q.length ≥ sz then sz - 1 else q.length)) := by
  unfold parse_value
  have h1 : ¬ ((34 : Nat) = 0) := by decide
  simp only [hs, cur_cons, List.tail_cons, hscan, length_append_sub, h1, if_false, if_true]
  by_cases h : cur r ≠ 34
  · rw [if_pos h, if_pos h]
  · rw [if_neg h, if_neg h]
    by_cases h2 : q.length ≥ sz
    · rw [if_pos h2, List.take_append_of_le_length]
      omega
    · rw [if_neg h2, List.take_left, List.take_length]

/-- The result of `parse_value` in unquoted mode. -/
theorem parse_value_unquoted (p val : List Nat) (sz : Nat) (t r : List Nat)
    (hs : skip_ws p = t ++ r) (h0 : cur (t ++ r) ≠ 0) (h34 : cur (t ++ r) ≠ 34)
    (hscan : token_scan (t ++ r) = r) :
    parse_value p val sz =
      if t.length = 0 then (-1, r, val)
      else (1, r, t.take (if t.length ≥ sz then sz - 1 else t.length)) := by
  unfold parse_value
  simp only [hs, hscan, length_append_sub]
  rw [if_neg h0, if_neg h34]
  by_cases h : t.length = 0
  · rw [if_pos h, if_pos h]
  · rw [if_neg h, if_neg h]
    by_cases h2 : t.length ≥ sz
    · rw [if_pos h2, List.take_append_of_le_length]
      omega
    · rw [if_neg h2, List.take_left, List.take_length]

theorem cur_eq_cons {p : List Nat} {c : Nat} (h : cur p = c) (hc : c ≠ 0) :
    p = c :: p.tail := by
  cases p with
  | nil => exact absurd h.symm hc
  | cons d r => rw [cur_cons] at h; rw [h, List.tail_cons]

theorem cur_eq_zero_of_no_nul {p : List Nat} (hp : ∀ c ∈ p, c ≠ 0) (h : cur p = 0) :
    p = [] := by
  cases p with
  | nil => rfl
  | cons d r => exact absurd h (hp d (List.mem_cons_self _ _))

/-- A successful `parse_key`: the key, a `':'` and the new cursor follow the
skipped whitespace. -/
theorem parse_key_success (w k r key : List Nat) (sz : Nat) (hw : ∀ c ∈ w, IsWs c)
    (hk : ∀ c ∈ k, KeyByte c) (hk0 : k ≠ []) (hlen : k.length < sz) :
    parse_key (w ++ (k ++ 58 :: r)) key sz = (1, r, k) := by
  have hcur : cur (k ++ 58 :: r) = cur k := cur_append_of_ne_nil _ hk0
  have hkb : KeyByte (cur k) := by
    cases k with
    | nil => exact absurd rfl hk0
    | cons c k => exact hk c (List.mem_cons_self _ _)
  have hs : skip_ws (w ++ (k ++ 58 :: r)) = k ++ 58 :: r := by
    rw [skip_ws_append_ws w _ hw]
    exact skip_ws_of_not_ws _ (by rw [hcur]; exact hkb.2.2)
  have hscan : key_scan (k ++ 58 :: r) = 58 :: r :=
    key_scan_append k _ hk (by rw [cur_cons]; decide)
  rw [parse_key_of_scan _ key sz k (58 :: r) hs hscan, hcur, if_neg hkb.1,
    if_neg (by rw [cur_cons]; decide), if_neg, List.tail_cons]
  have : 0 < k.length := List.length_pos.2 hk0
  omega

/-- The three ways `parse_key` returns. -/
theorem parse_key_cases (p key : List Nat) (sz : Nat) :
    (cur (skip_ws p) = 0 ∧ parse_key p key sz = (0, skip_ws p, key)) ∨
    (∃ r, parse_key p key sz = (-1, r, key)) ∨
    (∃ w k r, p = w ++ (k ++ 58 :: r) ∧ (∀ c ∈ w, IsWs c) ∧ (∀ c ∈ k, KeyByte c) ∧
      k ≠ [] ∧ k.length < sz ∧ parse_key p key sz = (1, r, k)) := by
  obtain ⟨w, hw1, hw2, _⟩ := skip_ws_decomp p
  obtain ⟨k, hk1, hk2, _⟩ := key_scan_decomp (skip_ws p)
  have hscan : key_scan (k ++ key_scan (skip_ws p)) = key_scan (skip_ws p) := by
    rw [← hk1]
  have h := parse_key_of_scan p key sz k (key_scan (skip_ws p)) hk1 hscan
  rw [← hk1] at h
  by_cases h0 : cur (skip_ws p) = 0
  · left
    rw [if_pos h0] at h
    exact ⟨h0, h⟩
  · right
    rw [if_neg h0] at h
    by_cases h1 : cur (key_scan (skip_ws p)) ≠ 58
    · left
      rw [if_pos h1] at h
      exact ⟨_, h⟩
    · rw [if_neg h1] at h
      by_cases h2 : k.length = 0 ∨ k.length ≥ sz
      · left
        rw [if_pos h2] at h
        exact ⟨_, h⟩
      · right
        rw [if_neg h2] at h
        have h58 : key_scan (skip_ws p) = 58 :: (key_scan (skip_ws p)).tail :=
          cur_eq_cons (not_not.1 h1) (by decide)
        refine ⟨w, k, (key_scan (skip_ws p)).tail, ?_, hw2, hk2, ?_, ?_, h⟩
        · rw [← h58, ← hk1]; exact hw1
        · intro hk; apply h2; left; rw [hk]; rfl
        · omega

/-- A successful quoted `parse_value`. -/
theorem parse_value_quoted_success (w q r val : List Nat) (sz : Nat)
    (hw : ∀ c ∈ w, IsWs c) (hq : ∀ c ∈ q, QuotByte c) :
    parse_value (w ++ 34 :: (q ++ 34 :: r)) val sz =
      (1, r, q.take (if q.length ≥ sz then sz - 1 else q.length)) := by
  have hs : skip_ws (w ++ 34 :: (q ++ 34 :: r)) = 34 :: (q ++ 34 :: r) := by
    rw [skip_ws_append_ws w _ hw]
    exact skip_ws_of_not_ws _ (by rw [cur_cons]; decide)
  have hscan : quote_scan (q ++ 34 :: r) = 34 :: r :=
    quote_scan_append q _ hq (by rw [cur_cons]; decide)
  rw [parse_value_quoted _ val sz q (34 :: r) hs hscan, if_neg (by rw [cur_cons]; decide),
    List.tail_cons]

/-- A successful unquoted `parse_value`. -/
theorem parse_value_unquoted_success (w t r val : List Nat) (sz : Nat)
    (hw : ∀ c ∈ w, IsWs c) (ht : ∀ c ∈ t, TokByte c) (ht0 : t ≠ []) (h34 : cur t ≠ 34)
    (hr : ¬ TokByte (cur r)) :
    parse_value (w ++ (t ++ r)) val sz =
      (1, r, t.take (if t.length ≥ sz then sz - 1 else t.length)) := by
  have hcur : cur (t ++ r) = cur t := cur_append_of_ne_nil _ ht0
  have htb : TokByte (cur t) := by
    cases t with
    | nil => exact absurd rfl ht0
    | cons c t => exact ht c (List.mem_cons_self _ _)
  have hs : skip_ws (w ++ (t ++ r)) = t ++ r := by
    rw [skip_ws_append_ws w _ hw]
    exact skip_ws_of_not_ws _ (by rw [hcur]; exact htb.2)
  have hscan : token_scan (t ++ r) = r := token_scan_append t r ht hr
  rw [parse_value_unquoted _ val sz t r hs (by rw [hcur]; exact htb.1)
    (by rw [hcur]; exact h34) hscan, if_neg]
  have : 0 < t.length := List.length_pos.2 ht0
  omega

/-- The three ways `parse_value` returns. -/
theorem parse_value_cases (p val : List Nat) (sz : Nat) :
    (∃ r, parse_value p val sz = (-1, r, val)) ∨
    (∃ w q r, p = w ++ 34 :: (q ++ 34 :: r) ∧ (∀ c ∈ w, IsWs c) ∧ (∀ c ∈ q, QuotByte c) ∧
      parse_value p val sz =
        (1, r, q.take (if q.length ≥ sz then sz - 1 else q.length))) ∨
    (∃ w t r, p = w ++ (t ++ r) ∧ (∀ c ∈ w, IsWs c) ∧ (∀ c ∈ t, TokByte c) ∧ t ≠ [] ∧
      cur t ≠ 34 ∧ ¬ TokByte (cur r) ∧
      parse_value p val sz =
        (1, r, t.take (if t.length ≥ sz then sz - 1 else t.length))) := by
  obtain ⟨w, hw1, hw2, _⟩ := skip_ws_decomp p
  by_cases h0 : cur (skip_ws p) = 0
  · left
    refine ⟨skip_ws p, ?_⟩
    unfold parse_value
    simp only [h0, if_true]
  by_cases h34 : cur (skip_ws p) = 34
  · have hsk : skip_ws p = 34 :: (skip_ws p).tail := cur_eq_cons h34 (by decide)
    obtain ⟨q, hq1, hq2, _⟩ := quote_scan_decomp (skip_ws p).tail
    have hscan : quote_scan (q ++ quote_scan (skip_ws p).tail) =
        quote_scan (skip_ws p).tail := by rw [← hq1]
    have hs : skip_ws p = 34 :: (q ++ quote_scan (skip_ws p).tail) := by
      rw [← hq1]; exact hsk
    have h := parse_value_quoted p val sz q _ hs hscan
    by_cases h1 : cur (quote_scan (skip_ws p).tail) ≠ 34
    · left
      rw [if_pos h1] at h
      exact ⟨_, h⟩
    · right; left
      rw [if_neg h1] at h
      have hq34 := cur_eq_cons (not_not.1 h1) (by decide)
      refine ⟨w, q, (quote_scan (skip_ws p).tail).tail, ?_, hw2, hq2, h⟩
      rw [← hq34, ← hs]; exact hw1
  · obtain ⟨t, ht1, ht2, ht3⟩ := token_scan_decomp (skip_ws p)
    have hscan : token_scan (t ++ token_scan (skip_ws p)) = token_scan (skip_ws p) := by
      rw [← ht1]
    have h := parse_value_unquoted p val sz t _ ht1 (by rw [← ht1]; exact h0)
      (by rw [← ht1]; exact h34) hscan
    by_cases h1 : t.length = 0
    · left
      rw [if_pos h1] at h
      exact ⟨_, h⟩
    · right; right
      rw [if_neg h1] at h
      have ht0 : t ≠ [] := fun e => h1 (by rw [e]; rfl)
      refine ⟨w, t, token_scan (skip_ws p), ?_, hw2, ht2, ht0, ?_, ht3, h⟩
      · rw [← ht1]; exact hw1
      · rw [← cur_append_of_ne_nil (token_scan (skip_ws p)) ht0, ← ht1]; exact h34

/-- Inversion of a successful `parse_key`. -/
theorem parse_key_one {p key p1 k : List Nat} {sz : Nat}
    (h : parse_key p key sz = (1, p1, k)) :
    ∃ w, p = w ++ (k ++ 58 :: p1) ∧ (∀ c ∈ w, IsWs c) ∧ (∀ c ∈ k, KeyByte c) ∧
      k ≠ [] ∧ k.length < sz := by
  rcases parse_key_cases p key sz with ⟨_, h1⟩ | ⟨r, h1⟩ | ⟨w, k2, r, hp, hw, hk, hk0, hlen, h1⟩
  · rw [h1] at h; simp at h
  · rw [h1] at h; simp at h
  · rw [h1] at h
    simp only [Prod.mk.injEq, true_and] at h
    obtain ⟨rfl, rfl⟩ := h
    exact ⟨w, hp, hw, hk, hk0, hlen⟩

/-- Inversion of a successful `parse_value`. -/
theorem parse_value_one {p val p2 v : List Nat} {sz : Nat}
    (h : parse_value p val sz = (1, p2, v)) :
    (∃ w q, p = w ++ 34 :: (q ++ 34 :: p2) ∧ (∀ c ∈ w, IsWs c) ∧ (∀ c ∈ q, QuotByte c) ∧
      v = q.take (if q.length ≥ sz then sz - 1 else q.length)) ∨
    (∃ w t, p = w ++ (t ++ p2) ∧ (∀ c ∈ w, IsWs c) ∧ (∀ c ∈ t, TokByte c) ∧ t ≠ [] ∧
      cur t ≠ 34 ∧ ¬ TokByte (cur p2) ∧
      v = t.take (if t.length ≥ sz then sz - 1 else t.length)) := by
  rcases parse_value_cases p val sz with ⟨r, h1⟩ | ⟨w, q, r, hp, hw, hq, h1⟩ |
    ⟨w, t, r, hp, hw, ht, ht0, h34, hr, h1⟩
  · rw [h1] at h; simp at h
  · rw [h1] at h
    simp only [Prod.mk.injEq, true_and] at h
    obtain ⟨rfl, rfl⟩ := h
    exact Or.inl ⟨w, q, hp, hw, hq, rfl⟩
  · rw [h1] at h
    simp only [Prod.mk.injEq, true_and] at h
    obtain ⟨rfl, rfl⟩ := h
    exact Or.inr ⟨w, t, hp, hw, ht, ht0, h34, hr, rfl⟩

theorem parse_key_one_length {p key p1 k : List Nat} {sz : Nat}
    (h : parse_key p key sz = (1, p1, k)) : p1.length < p.length := by
  obtain ⟨w, hp, _⟩ := parse_key_one h
  rw [hp]; simp only [List.length_append, List.length_cons]; omega

theorem parse_value_one_length {p val p2 v : List Nat} {sz : Nat}
    (h : parse_value p val sz = (1, p2, v)) : p2.length ≤ p.length := by
  rcases parse_value_one h with ⟨w, q, hp, _⟩ | ⟨w, t, hp, _⟩
  · rw [hp]; simp only [List.length_append, List.length_cons]; omega
  · rw [hp]; simp only [List.length_append, List.length_cons]; omega

/-! ## The pair loop -/

theorem main_loop_done {p r k : List Nat} (fuel : Nat)
    (h : parse_key p [] 256 = (0, r, k)) :
    main_loop (fuel + 1) p = some ([], Outcome.done) := by
  simp [main_loop, h]

theorem main_loop_invalidKey {p r k : List Nat} (fuel : Nat)
    (h : parse_key p [] 256 = (-1, r, k)) :
    main_loop (fuel + 1) p = some ([], Outcome.invalidKey) := by
  simp [main_loop, h]

theorem main_loop_invalidValue {p p1 k p2 v : List Nat} (fuel : Nat)
    (h : parse_key p [] 256 = (1, p1, k)) (hv : parse_value p1 [] 2048 = (-1, p2, v)) :
    main_loop (fuel + 1) p = some ([], Outcome.invalidValue k) := by
  simp [main_loop, h, hv]

theorem main_loop_pair {p p1 k p2 v : List Nat} (fuel : Nat)
    (h : parse_key p [] 256 = (1, p1, k)) (hv : parse_value p1 [] 2048 = (1, p2, v)) :
    main_loop (fuel + 1) p = consPair (k, v) (main_loop fuel p2) := by
  simp only [main_loop, h, hv, consPair]
  cases main_loop fuel p2 with
  | none => simp
  | some r => simp

/-- Any two iteration bounds above the number of remaining bytes give the same
result. -/
theorem main_loop_fuel : ∀ (f : Nat) (p : List Nat), p.length < f →
    ∀ f2, p.length < f2 → main_loop f p = main_loop f2 p := by
  intro f
  induction f with
  | zero => intro p hp; exact absurd hp (Nat.not_lt_zero _)
  | succ f ih =>
    intro p hp f2 hp2
    cases f2 with
    | zero => exact absurd hp2 (Nat.not_lt_zero _)
    | succ f2 =>
      rcases parse_key_cases p [] 256 with ⟨_, h⟩ | ⟨r, h⟩ | ⟨w, k, r, _, _, _, _, _, h⟩
      · rw [main_loop_done f h, main_loop_done f2 h]
      · rw [main_loop_invalidKey f h, main_loop_invalidKey f2 h]
      · have hl := parse_key_one_length h
        rcases parse_value_cases r [] 2048 with ⟨r2, hv⟩ | ⟨_, q, r2, _, _, _, hv⟩ |
          ⟨_, t, r2, _, _, _, _, _, _, hv⟩
        · rw [main_loop_invalidValue f h hv, main_loop_invalidValue f2 h hv]
        · have hl2 := parse_value_one_length hv
          rw [main_loop_pair f h hv, main_loop_pair f2 h hv,
            ih r2 (by omega) f2 (by omega)]
        · have hl2 := parse_value_one_length hv
          rw [main_loop_pair f h hv, main_loop_pair f2 h hv,
            ih r2 (by omega) f2 (by omega)]

theorem main_loop_eq_decode (f : Nat) (p : List Nat) (h : p.length < f) :
    main_loop f p = decode p :=
  main_loop_fuel f p h _ (Nat.lt_succ_self _)

/-- The pair loop always ends within the iteration bound of `decode`. -/
theorem decode_isSome (buf : List Nat) : ∃ res, decode buf = some res := by
  suffices h : ∀ (f : Nat) (p : List Nat), p.length < f → ∃ res, main_loop f p = some res
    from h _ buf (Nat.lt_succ_self _)
  intro f
  induction f with
  | zero => intro p hp; exact absurd hp (Nat.not_lt_zero _)
  | succ f ih =>
    intro p hp
    rcases parse_key_cases p [] 256 with ⟨_, h⟩ | ⟨r, h⟩ | ⟨w, k, r, _, _, _, _, _, h⟩
    · exact ⟨_, main_loop_done f h⟩
    · exact ⟨_, main_loop_invalidKey f h⟩
    · have hl := parse_key_one_length h
      rcases parse_value_cases r [] 2048 with ⟨r2, hv⟩ | ⟨_, q, r2, _, _, _, hv⟩ |
        ⟨_, t, r2, _, _, _, _, _, _, hv⟩
      · exact ⟨_, main_loop_invalidValue f h hv⟩
      · have hl2 := parse_value_one_length hv
        obtain ⟨res, hres⟩ := ih r2 (by omega)
        exact ⟨_, by rw [main_loop_pair f h hv, hres]; rfl⟩
      · have hl2 := parse_value_one_length hv
        obtain ⟨res, hres⟩ := ih r2 (by omega)
        exact ⟨_, by rw [main_loop_pair f h hv, hres]; rfl⟩

theorem decode_done {p r k : List Nat} (h : parse_key p [] 256 = (0, r, k)) :
    decode p = some ([], Outcome.done) :=
  main_loop_done _ h

theorem decode_invalidKey {p r k : List Nat} (h : parse_key p [] 256 = (-1, r, k)) :
    decode p = some ([], Outcome.invalidKey) :=
  main_loop_invalidKey _ h

theorem decode_invalidValue {p p1 k p2 v : List Nat}
    (h : parse_key p [] 256 = (1, p1, k)) (hv : parse_value p1 [] 2048 = (-1, p2, v)) :
    decode p = some ([], Outcome.invalidValue k) :=
  main_loop_invalidValue _ h hv

/-- One round of the loop that emits a pair, then the loop from the new cursor. -/
theorem decode_pair {p p1 k p2 v : List Nat}
    (h : parse_key p [] 256 = (1, p1, k)) (hv : parse_value p1 [] 2048 = (1, p2, v)) :
    decode p = consPair (k, v) (decode p2) := by
  have hl := parse_key_one_length h
  have hl2 := parse_value_one_length hv
  unfold decode
  rw [main_loop_pair _ h hv, main_loop_eq_decode _ p2 (by omega)]
  rfl

/-- The loop does not depend on whitespace before the cursor. -/
theorem decode_skip_ws (w r : List Nat) (hw : ∀ c ∈ w, IsWs c) :
    decode (w ++ r) = decode r := by
  have hk : parse_key (w ++ r) [] 256 = parse_key r [] 256 := by
    unfold parse_key; rw [skip_ws_append_ws w r hw]
  rcases parse_key_cases r [] 256 with ⟨_, h⟩ | ⟨r1, h⟩ | ⟨_, k, r1, _, _, _, _, _, h⟩
  · rw [decode_done h, decode_done (hk.trans h)]
  · rw [decode_invalidKey h, decode_invalidKey (hk.trans h)]
  · rcases parse_value_cases r1 [] 2048 with ⟨r2, hv⟩ | ⟨_, q, r2, _, _, _, hv⟩ |
      ⟨_, t, r2, _, _, _, _, _, _, hv⟩
    · rw [decode_invalidValue h hv, decode_invalidValue (hk.trans h) hv]
    · rw [decode_pair h hv, decode_pair (hk.trans h) hv]
    · rw [decode_pair h hv, decode_pair (hk.trans h) hv]

theorem consPair_some (kv : List Nat × List Nat) (ps : List (List Nat × List Nat))
    (o : Outcome) : consPair kv (some (ps, o)) = some (kv :: ps, o) := rfl

theorem consPair_eq_some {kv : List Nat × List Nat}
    {x : Option (List (List Nat × List Nat) × Outcome)}
    {ps : List (List Nat × List Nat)} {o : Outcome} (h : consPair kv x = some (ps, o)) :
    ∃ ps2, x = some (ps2, o) ∧ ps = kv :: ps2 := by
  cases x with
  | none => simp [consPair] at h
  | some r =>
    obtain ⟨ps2, o2⟩ := r
    simp only [consPair, Option.map_some', Option.some.injEq, Prod.mk.injEq] at h
    obtain ⟨h1, h2⟩ := h
    exact ⟨ps2, by rw [h2], h1.symm⟩

theorem ValidKey.ne_nil {k : List Nat} (h : ValidKey k) : k ≠ [] := by
  intro e; rw [e] at h; exact absurd h.1 (by decide)

theorem PlainByte.keyByte {c : Nat} (h : PlainByte c) : KeyByte c :=
  ⟨h.1, h.2.1, h.2.2.2⟩

theorem PlainByte.tokByte {c : Nat} (h : PlainByte c) : TokByte c :=
  ⟨h.1, h.2.2.2⟩

theorem take_vlen_of_le (v : List Nat) (h : v.length ≤ 2047) :
    v.take (if v.length ≥ 2048 then 2048 - 1 else v.length) = v := by
  rw [if_neg (by omega), List.take_length]

theorem take_vlen_of_ge (v : List Nat) (h : 2048 ≤ v.length) :
    v.take (if v.length ≥ 2048 then 2048 - 1 else v.length) = v.take 2047 := by
  rw [if_pos h]

/-- One well-formed round: a valid key, `':'` and an unquoted value of at most
2047 bytes that ends at whitespace, NUL or the end of the buffer. -/
theorem decode_unquoted_token (k v rest : List Nat) (hk : ValidKey k)
    (hv : ∀ c ∈ v, TokByte c) (hv0 : v ≠ []) (h34 : cur v ≠ 34)
    (hrest : ¬ TokByte (cur rest)) :
    decode (k ++ 58 :: (v ++ rest)) =
      consPair (k, v.take (if v.length ≥ 2048 then 2048 - 1 else v.length)) (decode rest) := by
  have h1 : parse_key (k ++ 58 :: (v ++ rest)) [] 256 = (1, v ++ rest, k) := by
    have := parse_key_success [] k (v ++ rest) [] 256 (by simp) hk.2.2 hk.ne_nil
      (by have := hk.2.1; omega)
    simpa using this
  have h2 : parse_value (v ++ rest) [] 2048 =
      (1, rest, v.take (if v.length ≥ 2048 then 2048 - 1 else v.length)) := by
    have := parse_value_unquoted_success [] v rest [] 2048 (by simp) hv hv0 h34 hrest
    simpa using this
  exact decode_pair h1 h2

/-- One well-formed round with a quoted value. -/
theorem decode_quoted_token (k q rest : List Nat) (hk : ValidKey k)
    (hq : ∀ c ∈ q, QuotByte c) :
    decode (k ++ 58 :: 34 :: (q ++ 34 :: rest)) =
      consPair (k, q.take (if q.length ≥ 2048 then 2048 - 1 else q.length)) (decode rest) := by
  have h1 : parse_key (k ++ 58 :: 34 :: (q ++ 34 :: rest)) [] 256 =
      (1, 34 :: (q ++ 34 :: rest), k) := by
    have := parse_key_success [] k (34 :: (q ++ 34 :: rest)) [] 256 (by simp) hk.2.2
      hk.ne_nil (by have := hk.2.1; omega)
    simpa using this
  have h2 : parse_value (34 :: (q ++ 34 :: rest)) [] 2048 =
      (1, rest, q.take (if q.length ≥ 2048 then 2048 - 1 else q.length)) := by
    have := parse_value_quoted_success [] q rest [] 2048 (by simp) hq
    simpa using this
  exact decode_pair h1 h2

theorem decode_nil : decode [] = some ([], Outcome.done) := rfl

theorem cur_ne_of_plain {v : List Nat} (hv : ∀ c ∈ v, PlainByte c) : cur v ≠ 34 := by
  cases v with
  | nil => decide
  | cons c r => exact (hv c (List.mem_cons_self _ _)).2.2.1

theorem keyByte_of_mem_replicate (n : Nat) : ∀ c ∈ List.replicate n 97, KeyByte c := by
  intro c hc
  rw [List.eq_of_mem_replicate hc]
  decide

/-- The guard `len >= key_sz` of `parse_key`: a span of `key_sz` or more bytes
before the `':'` is rejected, with the cursor left on the `':'`. -/
theorem parse_key_too_long (w k r key : List Nat) (sz : Nat) (hw : ∀ c ∈ w, IsWs c)
    (hk : ∀ c ∈ k, KeyByte c) (hlen : sz ≤ k.length) (hsz : 0 < sz) :
    parse_key (w ++ (k ++ 58 :: r)) key sz = (-1, 58 :: r, key) := by
  have hk0 : k ≠ [] := by
    intro e; rw [e, List.length_nil] at hlen; omega
  have hcur : cur (k ++ 58 :: r) = cur k := cur_append_of_ne_nil _ hk0
  have hkb : KeyByte (cur k) := by
    cases k with
    | nil => exact absurd rfl hk0
    | cons c k => exact hk c (List.mem_cons_self _ _)
  have hs : skip_ws (w ++ (k ++ 58 :: r)) = k ++ 58 :: r := by
    rw [skip_ws_append_ws w _ hw]
    exact skip_ws_of_not_ws _ (by rw [hcur]; exact hkb.2.2)
  have hscan : key_scan (k ++ 58 :: r) = 58 :: r :=
    key_scan_append k _ hk (by rw [cur_cons]; decide)
  rw [parse_key_of_scan _ key sz k (58 :: r) hs hscan, hcur, if_neg hkb.1,
    if_neg (by rw [cur_cons]; decide), if_pos (Or.inr hlen)]

theorem decode_key_too_long (k r : List Nat) (hk : ∀ c ∈ k, KeyByte c)
    (hlen : 256 ≤ k.length) : decode (k ++ 58 :: r) = some ([], Outcome.invalidKey) := by
  have := parse_key_too_long [] k r [] 256 (by simp) hk hlen (by decide)
  rw [List.nil_append] at this
  exact decode_invalidKey this

/-- A key span that is not followed by `':'` makes `parse_key` fail. -/
theorem parse_key_no_colon (w k r key : List Nat) (sz : Nat) (hw : ∀ c ∈ w, IsWs c)
    (hk : ∀ c ∈ k, KeyByte c) (hk0 : k ≠ []) (hr : ¬ KeyByte (cur r)) (h58 : cur r ≠ 58) :
    parse_key (w ++ (k ++ r)) key sz = (-1, r, key) := by
  have hcur : cur (k ++ r) = cur k := cur_append_of_ne_nil _ hk0
  have hkb : KeyByte (cur k) := by
    cases k with
    | nil => exact absurd rfl hk0
    | cons c k => exact hk c (List.mem_cons_self _ _)
  have hs : skip_ws (w ++ (k ++ r)) = k ++ r := by
    rw [skip_ws_append_ws w _ hw]
    exact skip_ws_of_not_ws _ (by rw [hcur]; exact hkb.2.2)
  have hscan : key_scan (k ++ r) = r := key_scan_append k _ hk hr
  rw [parse_key_of_scan _ key sz k r hs hscan, hcur, if_neg hkb.1, if_pos h58]

/-- A quoted value whose closing quote is missing makes `parse_value` fail. -/
theorem parse_value_unterminated (w c val : List Nat) (sz : Nat) (hw : ∀ x ∈ w, IsWs x)
    (hc : ∀ x ∈ c, x ≠ 34) : ∃ r, parse_value (w ++ 34 :: c) val sz = (-1, r, val) := by
  obtain ⟨q, hq1, _, hq3⟩ := quote_scan_decomp c
  have hs : skip_ws (w ++ 34 :: c) = 34 :: (q ++ quote_scan c) := by
    rw [skip_ws_append_ws w _ hw, ← hq1]
    exact skip_ws_of_not_ws _ (by rw [cur_cons]; decide)
  have hscan : quote_scan (q ++ quote_scan c) = quote_scan c := by rw [← hq1]
  have hne : cur (quote_scan c) ≠ 34 := by
    intro h34
    have hmem : (34 : Nat) ∈ c := by
      rw [hq1, cur_eq_cons h34 (by decide)]
      exact List.mem_append_right _ (List.mem_cons_self _ _)
    exact hc 34 hmem rfl
  exact ⟨_, by rw [parse_value_quoted _ val sz q _ hs hscan, if_pos hne]⟩

theorem parse_key_all_ws (w key : List Nat) (sz : Nat) (hw : ∀ c ∈ w, IsWs c) :
    parse_key w key sz = (0, [], key) := by
  have hs : skip_ws w = [] := by
    have := skip_ws_append_ws w [] hw
    rwa [List.append_nil] at this
  unfold parse_key
  simp only [hs, cur_nil, if_true]

theorem quotByte_of_mem_replicate (n : Nat) : ∀ c ∈ List.replicate n 120, QuotByte c := by
  intro c hc
  rw [List.eq_of_mem_replicate hc]
  decide

theorem tokByte_of_mem_replicate (n : Nat) : ∀ c ∈ List.replicate n 120, TokByte c := by
  intro c hc
  rw [List.eq_of_mem_replicate hc]
  decide

theorem not_tokByte_cur_append_space (r b2 : List Nat) (hr : ¬ TokByte (cur r)) :
    ¬ TokByte (cur (r ++ 32 :: b2)) := by
  cases r with
  | nil => rw [List.nil_append, cur_cons]; decide
  | cons c r => exact hr

/-- Appending a space and a second buffer to a NUL-free buffer that decodes
without error: the second buffer is decoded after the pairs of the first. -/
theorem decode_append_space (b2 : List Nat) (Q : List (List Nat × List Nat)) (e : Outcome)
    (h2 : decode b2 = some (Q, e)) :
    ∀ (n : Nat) (b1 : List Nat), b1.length < n → (∀ c ∈ b1, c ≠ 0) →
      ∀ P, decode b1 = some (P, Outcome.done) →
        decode (b1 ++ 32 :: b2) = some (P ++ Q, e) := by
  intro n
  induction n with
  | zero => intro b1 hlen; exact absurd hlen (Nat.not_lt_zero _)
  | succ n ih =>
    intro b1 hlen hnul P hP
    rcases parse_key_cases b1 [] 256 with ⟨h0, h⟩ | ⟨r, h⟩ |
      ⟨w, k, r, hb1, hw, hk, hk0, hklen, h⟩
    · rw [decode_done h] at hP
      simp only [Option.some.injEq, Prod.mk.injEq, and_true] at hP
      obtain ⟨w, hw1, hw2, _⟩ := skip_ws_decomp b1
      have hnil : skip_ws b1 = [] :=
        cur_eq_zero_of_no_nul
          (fun c hc => hnul c (by rw [hw1]; exact List.mem_append_right _ hc)) h0
      rw [hnil, List.append_nil] at hw1
      have hws : ∀ c ∈ b1 ++ [32], IsWs c := by
        intro c hc
        rcases List.mem_append.1 hc with hc | hc
        · rw [hw1] at hc; exact hw2 c hc
        · rw [List.mem_singleton.1 hc]; decide
      have hd := decode_skip_ws (b1 ++ [32]) b2 hws
      rw [List.append_assoc, List.singleton_append] at hd
      rw [hd, h2, ← hP, List.nil_append]
    · rw [decode_invalidKey h] at hP
      simp at hP
    · have hl := parse_key_one_length h
      have e1 : b1 ++ 32 :: b2 = w ++ (k ++ 58 :: (r ++ 32 :: b2)) := by
        rw [hb1]; simp
      have hk2 : parse_key (b1 ++ 32 :: b2) [] 256 = (1, r ++ 32 :: b2, k) := by
        rw [e1]; exact parse_key_success w k _ [] 256 hw hk hk0 hklen
      have hnr : ∀ c ∈ r, c ≠ 0 := by
        intro c hc; apply hnul; rw [hb1]; simp [hc]
      rcases parse_value_cases r [] 2048 with ⟨r2, hv⟩ | ⟨w2, q, r2, hr, hw2, hq, hv⟩ |
        ⟨w2, t, r2, hr, hw2, ht, ht0, h34, hr2, hv⟩
      · rw [decode_invalidValue h hv] at hP
        simp at hP
      · have hl2 := parse_value_one_length hv
        rw [decode_pair h hv] at hP
        obtain ⟨P2, hP2, hPe⟩ := consPair_eq_some hP
        have e2 : r ++ 32 :: b2 = w2 ++ 34 :: (q ++ 34 :: (r2 ++ 32 :: b2)) := by
          rw [hr]; simp
        have hv2 := parse_value_quoted_success w2 q (r2 ++ 32 :: b2) [] 2048 hw2 hq
        rw [← e2] at hv2
        have hn2 : ∀ c ∈ r2, c ≠ 0 := by
          intro c hc; apply hnr; rw [hr]; simp [hc]
        rw [decode_pair hk2 hv2, ih r2 (by omega) hn2 P2 hP2, hPe]
        rfl
      · have hl2 := parse_value_one_length hv
        rw [decode_pair h hv] at hP
        obtain ⟨P2, hP2, hPe⟩ := consPair_eq_some hP
        have hn2 : ∀ c ∈ r2, c ≠ 0 := by
          intro c hc; apply hnr; rw [hr]; simp [hc]
        have e2 : r ++ 32 :: b2 = w2 ++ (t ++ (r2 ++ 32 :: b2)) := by
          rw [hr]; simp
        have hv2 := parse_value_unquoted_success w2 t (r2 ++ 32 :: b2) [] 2048 hw2 ht ht0 h34
          (not_tokByte_cur_append_space r2 b2 hr2)
        rw [← e2] at hv2
        rw [decode_pair hk2 hv2, ih r2 (by omega) hn2 P2 hP2, hPe]
        rfl

theorem parse_key_one_suffix {p key p1 k : List Nat} {sz : Nat}
    (h : parse_key p key sz = (1, p1, k)) : ∃ pre, p = pre ++ p1 := by
  obtain ⟨w, hp, _⟩ := parse_key_one h
  exact ⟨w ++ k ++ [58], by rw [hp]; simp⟩

theorem parse_value_one_suffix {p val p2 v : List Nat} {sz : Nat}
    (h : parse_value p val sz = (1, p2, v)) : ∃ pre, p = pre ++ p2 := by
  rcases parse_value_one h with ⟨w, q, hp, _⟩ | ⟨w, t, hp, _⟩
  · exact ⟨w ++ 34 :: q ++ [34], by rw [hp]; simp⟩
  · exact ⟨w ++ t, by rw [hp]; simp⟩

/-- Every emitted pair is the result of one `parse_key` call at a cursor inside
the buffer followed by one `parse_value` call. -/
theorem decode_mem : ∀ (n : Nat) (buf : List Nat), buf.length < n →
    ∀ ps o, decode buf = some (ps, o) → ∀ kv ∈ ps,
      ∃ pre p p1 p2, buf = pre ++ p ∧ parse_key p [] 256 = (1, p1, kv.1) ∧
        parse_value p1 [] 2048 = (1, p2, kv.2) := by
  intro n
  induction n with
  | zero => intro buf hlen; exact absurd hlen (Nat.not_lt_zero _)
  | succ n ih =>
    intro buf hlen ps o hd kv hkv
    rcases parse_key_cases buf [] 256 with ⟨_, h⟩ | ⟨r, h⟩ | ⟨w, k, r, _, _, _, _, _, h⟩
    · rw [decode_done h] at hd
      simp only [Option.some.injEq, Prod.mk.injEq] at hd
      rw [← hd.1] at hkv
      exact absurd hkv (List.not_mem_nil _)
    · rw [decode_invalidKey h] at hd
      simp only [Option.some.injEq, Prod.mk.injEq] at hd
      rw [← hd.1] at hkv
      exact absurd hkv (List.not_mem_nil _)
    · have hl := parse_key_one_length h
      obtain ⟨pre1, hpre1⟩ := parse_key_one_suffix h
      have hstep : ∀ r2 v, parse_value r [] 2048 = (1, r2, v) →
          ∃ pre p p1 p2, buf = pre ++ p ∧ parse_key p [] 256 = (1, p1, kv.1) ∧
            parse_value p1 [] 2048 = (1, p2, kv.2) := by
        intro r2 v hv
        have hl2 := parse_value_one_length hv
        obtain ⟨pre2, hpre2⟩ := parse_value_one_suffix hv
        rw [decode_pair h hv] at hd
        obtain ⟨ps2, hps2, hpe⟩ := consPair_eq_some hd
        rw [hpe] at hkv
        rcases List.mem_cons.1 hkv with hkv | hkv
        · rw [hkv]
          exact ⟨[], buf, r, r2, rfl, h, hv⟩
        · obtain ⟨pre, p, p1, p2, hb, hk1, hv1⟩ := ih r2 (by omega) ps2 o hps2 kv hkv
          refine ⟨pre1 ++ pre2 ++ pre, p, p1, p2, ?_, hk1, hv1⟩
          rw [hpre1, hpre2, hb]; simp
      rcases parse_value_cases r [] 2048 with ⟨r2, hv⟩ | ⟨_, q, r2, _, _, _, hv⟩ |
        ⟨_, t, r2, _, _, _, _, _, _, hv⟩
      · rw [decode_invalidValue h hv] at hd
        simp only [Option.some.injEq, Prod.mk.injEq] at hd
        rw [← hd.1] at hkv
        exact absurd hkv (List.not_mem_nil _)
      · exact hstep _ _ hv
      · exact hstep _ _ hv

theorem length_take_vlen_le (v : List Nat) :
    (v.take (if v.length ≥ 2048 then 2048 - 1 else v.length)).length ≤ 2047 := by
  rw [List.length_take]
  by_cases h : v.length ≥ 2048
  · rw [if_pos h]; omega
  · rw [if_neg h]; omega

theorem take_vlen_eq_nil {v : List Nat}
    (h : v.take (if v.length ≥ 2048 then 2048 - 1 else v.length) = []) : v = [] := by
  have hl := congrArg List.length h
  rw [List.length_take, List.length_nil] at hl
  apply List.eq_nil_of_length_eq_zero
  by_cases h2 : v.length ≥ 2048
  · rw [if_pos h2] at hl; omega
  · rw [if_neg h2] at hl; omega

/-! ## The bytes before the first NUL -/

theorem beforeNul_nil : beforeNul [] = [] := rfl

theorem beforeNul_cons_zero (r : List Nat) : beforeNul (0 :: r) = [] := rfl

theorem beforeNul_cons_ne {c : Nat} (r : List Nat) (h : c ≠ 0) :
    beforeNul (c :: r) = c :: beforeNul r := by
  unfold beforeNul
  rw [List.takeWhile_cons, if_pos (by simpa using h)]

theorem beforeNul_append_of_no_nul (a b : List Nat) (ha : ∀ c ∈ a, c ≠ 0) :
    beforeNul (a ++ b) = a ++ beforeNul b := by
  induction a with
  | nil => rfl
  | cons c a ih =>
    rw [List.cons_append, beforeNul_cons_ne _ (ha c (List.mem_cons_self _ _)),
      ih (fun d hd => ha d (List.mem_cons_of_mem _ hd)), List.cons_append]

theorem beforeNul_of_no_nul (a : List Nat) (ha : ∀ c ∈ a, c ≠ 0) : beforeNul a = a := by
  have := beforeNul_append_of_no_nul a [] ha
  rwa [List.append_nil, beforeNul_nil, List.append_nil] at this

theorem beforeNul_no_nul (p : List Nat) : ∀ c ∈ beforeNul p, c ≠ 0 := by
  intro c hc
  have := List.mem_takeWhile_imp hc
  simpa using this

theorem cur_beforeNul (p : List Nat) : cur (beforeNul p) = cur p := by
  cases p with
  | nil => rfl
  | cons c r =>
    by_cases h : c = 0
    · rw [h]; rfl
    · rw [beforeNul_cons_ne r h]; rfl

theorem beforeNul_of_cur_zero {p : List Nat} (h : cur p = 0) : beforeNul p = [] := by
  cases p with
  | nil => rfl
  | cons c r => rw [cur_cons] at h; rw [h]; rfl

theorem beforeNul_tail {p : List Nat} (h : cur p ≠ 0) :
    (beforeNul p).tail = beforeNul p.tail := by
  cases p with
  | nil => exact absurd rfl h
  | cons c r =>
    have hc : c ≠ 0 := h
    rw [beforeNul_cons_ne r hc, List.tail_cons, List.tail_cons]

theorem beforeNul_append_ws (b w : List Nat) (hw : ∀ c ∈ w, IsWs c) :
    beforeNul (b ++ w) = beforeNul b ∨ beforeNul (b ++ w) = beforeNul b ++ w := by
  induction b with
  | nil =>
    right
    rw [List.nil_append, beforeNul_nil, List.nil_append]
    exact beforeNul_of_no_nul w (fun c hc e => not_isWs_zero (e ▸ hw c hc))
  | cons c b ih =>
    by_cases h : c = 0
    · left; rw [h]; rfl
    · rw [List.cons_append, beforeNul_cons_ne _ h, beforeNul_cons_ne _ h]
      rcases ih with ih | ih
      · left; rw [ih]
      · right; rw [ih, List.cons_append]

theorem IsWs.ne_zero {c : Nat} (h : IsWs c) : c ≠ 0 := fun e => not_isWs_zero (e ▸ h)

theorem IsWs.quotByte {c : Nat} (h : IsWs c) : QuotByte c := by
  rcases h with h | h | h | h <;> rw [h] <;> decide

theorem IsWs.not_keyByte {c : Nat} (h : IsWs c) : ¬ KeyByte c := fun hk => hk.2.2 h

theorem IsWs.not_tokByte {c : Nat} (h : IsWs c) : ¬ TokByte c := fun hk => hk.2 h

theorem tokByte_of_keyByte {c : Nat} (h : KeyByte c) : TokByte c := ⟨h.1, h.2.2⟩

theorem cur_mem {p : List Nat} (h : p ≠ []) : cur p ∈ p := by
  cases p with
  | nil => exact absurd rfl h
  | cons c r => exact List.mem_cons_self _ _

theorem cur_ws_or_zero {w : List Nat} (hw : ∀ c ∈ w, IsWs c) : IsWs (cur w) ∨ cur w = 0 := by
  cases w with
  | nil => right; rfl
  | cons c r => left; exact hw c (List.mem_cons_self _ _)

theorem cur_append_nil_or (r w : List Nat) :
    (r = [] ∧ cur (r ++ w) = cur w) ∨ (r ≠ [] ∧ cur (r ++ w) = cur r) := by
  cases r with
  | nil => left; exact ⟨rfl, rfl⟩
  | cons c r => right; exact ⟨by simp, rfl⟩

theorem tail_append_of_ne_nil {r : List Nat} (w : List Nat) (h : r ≠ []) :
    (r ++ w).tail = r.tail ++ w := by
  cases r with
  | nil => exact absurd rfl h
  | cons c r => rfl

/-! ## The parsers on a buffer given by its parts -/

theorem parse_key_compute0 (w s key : List Nat) (sz : Nat) (hw : ∀ c ∈ w, IsWs c)
    (h0 : cur s = 0) : parse_key (w ++ s) key sz = (0, s, key) := by
  have hs : skip_ws (w ++ s) = s := by
    rw [skip_ws_append_ws w _ hw]
    exact skip_ws_of_not_ws _ (by rw [h0]; exact not_isWs_zero)
  unfold parse_key
  simp only [hs, h0, if_true]

theorem parse_key_compute (w k r key : List Nat) (sz : Nat) (hw : ∀ c ∈ w, IsWs c)
    (hk : ∀ c ∈ k, KeyByte c) (hr : ¬ KeyByte (cur r)) (h0 : cur (k ++ r) ≠ 0)
    (hws : ¬ IsWs (cur (k ++ r))) :
    parse_key (w ++ (k ++ r)) key sz =
      if cur r ≠ 58 then (-1, r, key)
      else if k.length = 0 ∨ k.length ≥ sz then (-1, r, key)
      else (1, r.tail, k) := by
  have hs : skip_ws (w ++ (k ++ r)) = k ++ r := by
    rw [skip_ws_append_ws w _ hw]
    exact skip_ws_of_not_ws _ hws
  rw [parse_key_of_scan _ key sz k r hs (key_scan_append k r hk hr), if_neg h0]

theorem parse_value_compute0 (w s val : List Nat) (sz : Nat) (hw : ∀ c ∈ w, IsWs c)
    (h0 : cur s = 0) : parse_value (w ++ s) val sz = (-1, s, val) := by
  have hs : skip_ws (w ++ s) = s := by
    rw [skip_ws_append_ws w _ hw]
    exact skip_ws_of_not_ws _ (by rw [h0]; exact not_isWs_zero)
  unfold parse_value
  simp only [hs, h0, if_true]

theorem parse_value_compute_quoted (w q r val : List Nat) (sz : Nat)
    (hw : ∀ c ∈ w, IsWs c) (hq : ∀ c ∈ q, QuotByte c) (hr : ¬ QuotByte (cur r)) :
    parse_value (w ++ 34 :: (q ++ r)) val sz =
      if cur r ≠ 34 then (-1, r, val)
      else (1, r.tail, q.take (if q.length ≥ sz then sz - 1 else q.length)) := by
  have hs : skip_ws (w ++ 34 :: (q ++ r)) = 34 :: (q ++ r) := by
    rw [skip_ws_append_ws w _ hw]
    exact skip_ws_of_not_ws _ (by rw [cur_cons]; decide)
  exact parse_value_quoted _ val sz q r hs (quote_scan_append q r hq hr)

/-- Every cursor at which a key is read: whitespace, then either the terminator
or a key span and the byte that stopped the scan. -/
theorem key_shape (p : List Nat) :
    (∃ w s, p = w ++ s ∧ (∀ c ∈ w, IsWs c) ∧ cur s = 0) ∨
    (∃ w k r, p = w ++ (k ++ r) ∧ (∀ c ∈ w, IsWs c) ∧ (∀ c ∈ k, KeyByte c) ∧
      ¬ KeyByte (cur r) ∧ cur (k ++ r) ≠ 0 ∧ ¬ IsWs (cur (k ++ r))) := by
  obtain ⟨w, hw1, hw2, hw3⟩ := skip_ws_decomp p
  by_cases h0 : cur (skip_ws p) = 0
  · exact Or.inl ⟨w, skip_ws p, hw1, hw2, h0⟩
  · obtain ⟨k, hk1, hk2, hk3⟩ := key_scan_decomp (skip_ws p)
    refine Or.inr ⟨w, k, key_scan (skip_ws p), ?_, hw2, hk2, hk3, ?_, ?_⟩
    · rw [← hk1]; exact hw1
    · rw [← hk1]; exact h0
    · rw [← hk1]; exact hw3

/-- Every cursor at which a value is read: whitespace, then the terminator, or
a quote and a quoted span, or a non-empty unquoted span. -/
theorem value_shape (p : List Nat) :
    (∃ w s, p = w ++ s ∧ (∀ c ∈ w, IsWs c) ∧ cur s = 0) ∨
    (∃ w q r, p = w ++ 34 :: (q ++ r) ∧ (∀ c ∈ w, IsWs c) ∧ (∀ c ∈ q, QuotByte c) ∧
      ¬ QuotByte (cur r)) ∨
    (∃ w t r, p = w ++ (t ++ r) ∧ (∀ c ∈ w, IsWs c) ∧ (∀ c ∈ t, TokByte c) ∧ t ≠ [] ∧
      cur t ≠ 34 ∧ ¬ TokByte (cur r)) := by
  obtain ⟨w, hw1, hw2, hw3⟩ := skip_ws_decomp p
  by_cases h0 : cur (skip_ws p) = 0
  · exact Or.inl ⟨w, skip_ws p, hw1, hw2, h0⟩
  by_cases h34 : cur (skip_ws p) = 34
  · have hsk : skip_ws p = 34 :: (skip_ws p).tail := cur_eq_cons h34 (by decide)
    obtain ⟨q, hq1, hq2, hq3⟩ := quote_scan_decomp (skip_ws p).tail
    refine Or.inr (Or.inl ⟨w, q, quote_scan (skip_ws p).tail, ?_, hw2, hq2, hq3⟩)
    rw [← hq1, ← hsk]; exact hw1
  · obtain ⟨t, ht1, ht2, ht3⟩ := token_scan_decomp (skip_ws p)
    have ht0 : t ≠ [] := by
      intro e
      rw [e, List.nil_append] at ht1
      rw [← ht1] at ht3
      exact ht3 ⟨h0, hw3⟩
    refine Or.inr (Or.inr ⟨w, t, token_scan (skip_ws p), ?_, hw2, ht2, ht0, ?_, ht3⟩)
    · rw [← ht1]; exact hw1
    · rw [← cur_append_of_ne_nil (token_scan (skip_ws p)) ht0, ← ht1]; exact h34

theorem parse_key_rc (p key : List Nat) (sz : Nat) :
    (parse_key p key sz).1 = 0 ∨ (parse_key p key sz).1 = -1 ∨ (parse_key p key sz).1 = 1 := by
  rcases parse_key_cases p key sz with ⟨_, h⟩ | ⟨r, h⟩ | ⟨w, k, r, _, _, _, _, _, h⟩
  · left; rw [h]
  · right; left; rw [h]
  · right; right; rw [h]

theorem parse_value_rc (p val : List Nat) (sz : Nat) :
    (parse_value p val sz).1 = -1 ∨ (parse_value p val sz).1 = 1 := by
  rcases parse_value_cases p val sz with ⟨r, h⟩ | ⟨_, q, r, _, _, _, h⟩ |
    ⟨_, t, r, _, _, _, _, _, _, h⟩
  · left; rw [h]
  · right; rw [h]
  · right; rw [h]

/-! ## Buffers on which the pair loop behaves the same -/

/-- A relation between cursors that both parsers respect (same return code, same
output, related cursors after a success) relates runs of the pair loop with the
same result. -/
theorem main_loop_sim (R : List Nat → List Nat → Prop)
    (hk : ∀ p q, R p q →
      (parse_key q [] 256).1 = (parse_key p [] 256).1 ∧
      (parse_key q [] 256).2.2 = (parse_key p [] 256).2.2 ∧
      ((parse_key p [] 256).1 = 1 → R (parse_key p [] 256).2.1 (parse_key q [] 256).2.1))
    (hv : ∀ p q, R p q →
      (parse_value q [] 2048).1 = (parse_value p [] 2048).1 ∧
      (parse_value q [] 2048).2.2 = (parse_value p [] 2048).2.2 ∧
      ((parse_value p [] 2048).1 = 1 →
        R (parse_value p [] 2048).2.1 (parse_value q [] 2048).2.1)) :
    ∀ (f : Nat) (p q : List Nat), R p q → main_loop f q = main_loop f p := by
  intro f
  induction f with
  | zero => intro p q _; rfl
  | succ f ih =>
    intro p q hR
    obtain ⟨hk1, hk2, hk3⟩ := hk p q hR
    simp only [main_loop]
    rw [hk1, hk2]
    by_cases h0 : (parse_key p [] 256).1 = 0
    · rw [if_pos h0, if_pos h0]
    rw [if_neg h0, if_neg h0]
    by_cases h1 : (parse_key p [] 256).1 < 0
    · rw [if_pos h1, if_pos h1]
    rw [if_neg h1, if_neg h1]
    have hone : (parse_key p [] 256).1 = 1 := by
      rcases parse_key_rc p [] 256 with h | h | h
      · exact absurd h h0
      · rw [h] at h1; exact absurd (by decide) h1
      · exact h
    have hR1 := hk3 hone
    obtain ⟨hv1, hv2, hv3⟩ := hv _ _ hR1
    rw [hv1, hv2]
    by_cases h2 : (parse_value (parse_key p [] 256).2.1 [] 2048).1 < 0
    · rw [if_pos h2, if_pos h2]
    rw [if_neg h2, if_neg h2]
    have hvone : (parse_value (parse_key p [] 256).2.1 [] 2048).1 = 1 := by
      rcases parse_value_rc (parse_key p [] 256).2.1 [] 2048 with h | h
      · rw [h] at h2; exact absurd (by decide) h2
      · exact h
    rw [ih _ _ (hv3 hvone)]

theorem decode_sim (R : List Nat → List Nat → Prop)
    (hk : ∀ p q, R p q →
      (parse_key q [] 256).1 = (parse_key p [] 256).1 ∧
      (parse_key q [] 256).2.2 = (parse_key p [] 256).2.2 ∧
      ((parse_key p [] 256).1 = 1 → R (parse_key p [] 256).2.1 (parse_key q [] 256).2.1))
    (hv : ∀ p q, R p q →
      (parse_value q [] 2048).1 = (parse_value p [] 2048).1 ∧
      (parse_value q [] 2048).2.2 = (parse_value p [] 2048).2.2 ∧
      ((parse_value p [] 2048).1 = 1 →
        R (parse_value p [] 2048).2.1 (parse_value q [] 2048).2.1))
    (p q : List Nat) (h : R p q) : decode q = decode p := by
  have h1 := main_loop_sim R hk hv (p.length + q.length + 1) p q h
  rw [main_loop_eq_decode _ q (by omega), main_loop_eq_decode _ p (by omega)] at h1
  exact h1

/-- With the bytes from the first NUL on removed, `parse_key` returns the same
code and key, and the same cursor cut at its first NUL. -/
theorem parse_key_beforeNul (p key : List Nat) (sz : Nat) :
    parse_key (beforeNul p) key sz =
      ((parse_key p key sz).1, beforeNul (parse_key p key sz).2.1,
        (parse_key p key sz).2.2) := by
  rcases key_shape p with ⟨w, s, hp, hw, h0⟩ | ⟨w, k, r, hp, hw, hk, hr, h0, hws⟩
  · have hb : beforeNul p = w ++ [] := by
      rw [hp, beforeNul_append_of_no_nul w s (fun c hc => (hw c hc).ne_zero),
        beforeNul_of_cur_zero h0]
    rw [hb, parse_key_compute0 w [] key sz hw rfl, hp, parse_key_compute0 w s key sz hw h0,
      beforeNul_of_cur_zero h0]
  · have hkr : beforeNul (k ++ r) = k ++ beforeNul r :=
      beforeNul_append_of_no_nul k r (fun c hc => (hk c hc).1)
    have hb : beforeNul p = w ++ (k ++ beforeNul r) := by
      rw [hp, beforeNul_append_of_no_nul w _ (fun c hc => (hw c hc).ne_zero), hkr]
    have hcur : cur (k ++ beforeNul r) = cur (k ++ r) := by
      rw [← hkr, cur_beforeNul]
    rw [hb, parse_key_compute w k (beforeNul r) key sz hw hk
        (by rw [cur_beforeNul]; exact hr) (by rw [hcur]; exact h0) (by rw [hcur]; exact hws),
      hp, parse_key_compute w k r key sz hw hk hr h0 hws, cur_beforeNul]
    by_cases h1 : cur r ≠ 58
    · simp only [if_pos h1]
    · by_cases h2 : k.length = 0 ∨ k.length ≥ sz
      · simp only [if_neg h1, if_pos h2]
      · have h58 : cur r = 58 := not_not.1 h1
        simp only [if_neg h1, if_neg h2]
        rw [beforeNul_tail (by rw [h58]; decide)]

/-- With the bytes from the first NUL on removed, `parse_value` returns the same
code and value, and the same cursor cut at its first NUL. -/
theorem parse_value_beforeNul (p val : List Nat) (sz : Nat) :
    parse_value (beforeNul p) val sz =
      ((parse_value p val sz).1, beforeNul (parse_value p val sz).2.1,
        (parse_value p val sz).2.2) := by
  rcases value_shape p with ⟨w, s, hp, hw, h0⟩ | ⟨w, q, r, hp, hw, hq, hr⟩ |
    ⟨w, t, r, hp, hw, ht, ht0, h34, hr⟩
  · have hb : beforeNul p = w ++ [] := by
      rw [hp, beforeNul_append_of_no_nul w s (fun c hc => (hw c hc).ne_zero),
        beforeNul_of_cur_zero h0]
    rw [hb, parse_value_compute0 w [] val sz hw rfl, hp,
      parse_value_compute0 w s val sz hw h0, beforeNul_of_cur_zero h0]
  · have hb : beforeNul p = w ++ 34 :: (q ++ beforeNul r) := by
      rw [hp, beforeNul_append_of_no_nul w _ (fun c hc => (hw c hc).ne_zero),
        beforeNul_cons_ne _ (by decide), beforeNul_append_of_no_nul q r (fun c hc => (hq c hc).1)]
    rw [hb, parse_value_compute_quoted w q (beforeNul r) val sz hw hq
        (by rw [cur_beforeNul]; exact hr),
      hp, parse_value_compute_quoted w q r val sz hw hq hr, cur_beforeNul]
    by_cases h1 : cur r ≠ 34
    · simp only [if_pos h1]
    · have h2 : cur r = 34 := not_not.1 h1
      simp only [if_neg h1]
      rw [beforeNul_tail (by rw [h2]; decide)]
  · have hb : beforeNul p = w ++ (t ++ beforeNul r) := by
      rw [hp, beforeNul_append_of_no_nul w _ (fun c hc => (hw c hc).ne_zero),
        beforeNul_append_of_no_nul t r (fun c hc => (ht c hc).1)]
    rw [hb, parse_value_unquoted_success w t (beforeNul r) val sz hw ht ht0 h34
        (by rw [cur_beforeNul]; exact hr),
      hp, parse_value_unquoted_success w t r val sz hw ht ht0 h34 hr]

/-- The pair loop does not see the bytes from the first NUL on. -/
theorem decode_beforeNul (p : List Nat) : decode (beforeNul p) = decode p := by
  refine decode_sim (fun p q => q = beforeNul p) ?_ ?_ p (beforeNul p) rfl
  · intro p q hq
    rw [hq, parse_key_beforeNul p [] 256]
    exact ⟨rfl, rfl, fun _ => rfl⟩
  · intro p q hq
    rw [hq, parse_value_beforeNul p [] 2048]
    exact ⟨rfl, rfl, fun _ => rfl⟩

/-- Whitespace appended to a NUL-free cursor does not change what `parse_key`
returns, except that the cursor it leaves is followed by that whitespace. -/
theorem parse_key_append_ws (p w key : List Nat) (sz : Nat) (hp : ∀ c ∈ p, c ≠ 0)
    (hw : ∀ c ∈ w, IsWs c) :
    (parse_key (p ++ w) key sz).1 = (parse_key p key sz).1 ∧
    (parse_key (p ++ w) key sz).2.2 = (parse_key p key sz).2.2 ∧
    ((parse_key p key sz).1 = 1 →
      (∀ c ∈ (parse_key p key sz).2.1, c ≠ 0) ∧
      (parse_key (p ++ w) key sz).2.1 = (parse_key p key sz).2.1 ++ w) := by
  rcases key_shape p with ⟨w0, s, hps, hw0, h0⟩ | ⟨w0, k, r, hpk, hw0, hk, hr, h0, hws⟩
  · have hs : s = [] :=
      cur_eq_zero_of_no_nul (fun c hc => hp c (by rw [hps]; exact List.mem_append_right _ hc)) h0
    have e1 : p ++ w = (w0 ++ w) ++ [] := by rw [hps, hs]; simp
    have hww : ∀ c ∈ w0 ++ w, IsWs c := by
      intro c hc
      rcases List.mem_append.1 hc with hc | hc
      · exact hw0 c hc
      · exact hw c hc
    have e2 : p = w0 ++ [] := by rw [hps, hs]
    rw [e1, parse_key_compute0 (w0 ++ w) [] key sz hww rfl]
    rw [e2, parse_key_compute0 w0 [] key sz hw0 rfl]
    exact ⟨rfl, rfl, fun h => by simp at h⟩
  · have hkr : k ++ r ≠ [] := by
      intro e; rw [e] at h0; exact h0 rfl
    have e1 : p ++ w = w0 ++ (k ++ (r ++ w)) := by rw [hpk]; simp
    have hcur : cur (k ++ (r ++ w)) = cur (k ++ r) := by
      rw [← List.append_assoc]; exact cur_append_of_ne_nil w hkr
    have hrn : ∀ c ∈ r, c ≠ 0 := by
      intro c hc; apply hp; rw [hpk]; simp [hc]
    have hrw : ¬ KeyByte (cur (r ++ w)) := by
      rcases cur_append_nil_or r w with ⟨_, h⟩ | ⟨_, h⟩
      · rw [h]
        rcases cur_ws_or_zero hw with h2 | h2
        · exact h2.not_keyByte
        · rw [h2]; decide
      · rw [h]; exact hr
    rw [e1, parse_key_compute w0 k (r ++ w) key sz hw0 hk hrw (by rw [hcur]; exact h0)
      (by rw [hcur]; exact hws)]
    rw [hpk, parse_key_compute w0 k r key sz hw0 hk hr h0 hws]
    rcases cur_append_nil_or r w with ⟨hr0, h⟩ | ⟨hr0, h⟩
    · have h1 : cur (r ++ w) ≠ 58 := by
        rw [h]
        rcases cur_ws_or_zero hw with h2 | h2
        · intro e; rw [e] at h2; exact absurd h2 (by decide)
        · rw [h2]; decide
      have h3 : cur r ≠ 58 := by rw [hr0]; decide
      simp only [if_pos h1, if_pos h3]
      exact ⟨trivial, trivial, fun h => absurd h (by decide)⟩
    · rw [h]
      by_cases h1 : cur r ≠ 58
      · simp only [if_pos h1]
        exact ⟨trivial, trivial, fun h => absurd h (by decide)⟩
      · by_cases h2 : k.length = 0 ∨ k.length ≥ sz
        · simp only [if_neg h1, if_pos h2]
          exact ⟨trivial, trivial, fun h => absurd h (by decide)⟩
        · simp only [if_neg h1, if_neg h2]
          refine ⟨trivial, trivial, fun _ => ⟨?_, tail_append_of_ne_nil w hr0⟩⟩
          intro c hc
          exact hrn c (List.mem_of_mem_tail hc)

/-- Whitespace appended to a NUL-free cursor does not change what `parse_value`
returns, except that the cursor it leaves is followed by that whitespace. -/
theorem parse_value_append_ws (p w val : List Nat) (sz : Nat) (hp : ∀ c ∈ p, c ≠ 0)
    (hw : ∀ c ∈ w, IsWs c) :
    (parse_value (p ++ w) val sz).1 = (parse_value p val sz).1 ∧
    (parse_value (p ++ w) val sz).2.2 = (parse_value p val sz).2.2 ∧
    ((parse_value p val sz).1 = 1 →
      (∀ c ∈ (parse_value p val sz).2.1, c ≠ 0) ∧
      (parse_value (p ++ w) val sz).2.1 = (parse_value p val sz).2.1 ++ w) := by
  have hww : ∀ (w0 : List Nat), (∀ c ∈ w0, IsWs c) → ∀ c ∈ w0 ++ w, IsWs c := by
    intro w0 hw0 c hc
    rcases List.mem_append.1 hc with hc | hc
    · exact hw0 c hc
    · exact hw c hc
  rcases value_shape p with ⟨w0, s, hps, hw0, h0⟩ | ⟨w0, q, r, hpq, hw0, hq, hr⟩ |
    ⟨w0, t, r, hpt, hw0, ht, ht0, h34, hr⟩
  · have hs : s = [] :=
      cur_eq_zero_of_no_nul (fun c hc => hp c (by rw [hps]; exact List.mem_append_right _ hc)) h0
    have e1 : p ++ w = (w0 ++ w) ++ [] := by rw [hps, hs]; simp
    have e2 : p = w0 ++ [] := by rw [hps, hs]
    rw [e1, parse_value_compute0 (w0 ++ w) [] val sz (hww w0 hw0) rfl]
    rw [e2, parse_value_compute0 w0 [] val sz hw0 rfl]
    exact ⟨rfl, rfl, fun h => by simp at h⟩
  · have hrn : ∀ c ∈ r, c ≠ 0 := by
      intro c hc; apply hp; rw [hpq]; simp [hc]
    by_cases hr0 : r = []
    · have e1 : p ++ w = w0 ++ 34 :: ((q ++ w) ++ []) := by rw [hpq, hr0]; simp
      have hqw : ∀ c ∈ q ++ w, QuotByte c := by
        intro c hc
        rcases List.mem_append.1 hc with hc | hc
        · exact hq c hc
        · exact (hw c hc).quotByte
      have e2 : p = w0 ++ 34 :: (q ++ []) := by rw [hpq, hr0]
      rw [e1, parse_value_compute_quoted w0 (q ++ w) [] val sz hw0 hqw (by decide)]
      rw [e2, parse_value_compute_quoted w0 q [] val sz hw0 hq (by decide)]
      have h1 : cur ([] : List Nat) ≠ 34 := by decide
      simp only [if_pos h1]
      exact ⟨trivial, trivial, fun h => absurd h (by decide)⟩
    · have h34 : cur r = 34 := by
        by_contra h
        exact hr ⟨hrn _ (cur_mem hr0), h⟩
      have hc : cur (r ++ w) = cur r := cur_append_of_ne_nil w hr0
      have e1 : p ++ w = w0 ++ 34 :: (q ++ (r ++ w)) := by rw [hpq]; simp
      rw [e1, parse_value_compute_quoted w0 q (r ++ w) val sz hw0 hq
        (by rw [hc, h34]; decide)]
      rw [hpq, parse_value_compute_quoted w0 q r val sz hw0 hq hr, hc]
      have h1 : ¬ cur r ≠ 34 := not_not.2 h34
      simp only [if_neg h1]
      refine ⟨trivial, trivial, fun _ => ⟨?_, tail_append_of_ne_nil w hr0⟩⟩
      intro c hc
      exact hrn c (List.mem_of_mem_tail hc)
  · have hrn : ∀ c ∈ r, c ≠ 0 := by
      intro c hc; apply hp; rw [hpt]; simp [hc]
    have hrw : ¬ TokByte (cur (r ++ w)) := by
      rcases cur_append_nil_or r w with ⟨_, h⟩ | ⟨_, h⟩
      · rw [h]
        rcases cur_ws_or_zero hw with h2 | h2
        · exact h2.not_tokByte
        · rw [h2]; decide
      · rw [h]; exact hr
    have e1 : p ++ w = w0 ++ (t ++ (r ++ w)) := by rw [hpt]; simp
    rw [e1, parse_value_unquoted_success w0 t (r ++ w) val sz hw0 ht ht0 h34 hrw]
    rw [hpt, parse_value_unquoted_success w0 t r val sz hw0 ht ht0 h34 hr]
    exact ⟨rfl, rfl, fun _ => ⟨hrn, rfl⟩⟩

/-- Trailing whitespace does not change the result of the pair loop. -/
theorem decode_append_ws (b w : List Nat) (hw : ∀ c ∈ w, IsWs c) :
    decode (b ++ w) = decode b := by
  have hnf : ∀ p : List Nat, (∀ c ∈ p, c ≠ 0) → decode (p ++ w) = decode p := by
    intro p hp
    refine decode_sim (fun p q => (∀ c ∈ p, c ≠ 0) ∧ q = p ++ w) ?_ ?_ p (p ++ w) ⟨hp, rfl⟩
    · intro p q hq
      obtain ⟨hq1, hq2⟩ := hq
      rw [hq2]
      obtain ⟨h1, h2, h3⟩ := parse_key_append_ws p w [] 256 hq1 hw
      exact ⟨h1, h2, h3⟩
    · intro p q hq
      obtain ⟨hq1, hq2⟩ := hq
      rw [hq2]
      obtain ⟨h1, h2, h3⟩ := parse_value_append_ws p w [] 2048 hq1 hw
      exact ⟨h1, h2, h3⟩
  rw [← decode_beforeNul (b ++ w), ← decode_beforeNul b]
  rcases beforeNul_append_ws b w hw with h | h
  · rw [h]
  · rw [h]; exact hnf _ (beforeNul_no_nul b)

/-! ## Facts about emitted pairs -/

theorem mem_take_vlen {v : List Nat} {c : Nat}
    (h : c ∈ v.take (if v.length ≥ 2048 then 2048 - 1 else v.length)) : c ∈ v :=
  List.mem_of_mem_take h

/-- Emitted keys and values contain no NUL byte. -/
theorem decode_mem_no_nul (buf : List Nat) (ps : List (List Nat × List Nat)) (o : Outcome)
    (kv : List Nat × List Nat) (h : decode buf = some (ps, o)) (hkv : kv ∈ ps) :
    (∀ c ∈ kv.1, c ≠ 0) ∧ (∀ c ∈ kv.2, c ≠ 0) := by
  obtain ⟨pre, p, p1, p2, _, hk, hv⟩ :=
    decode_mem (buf.length + 1) buf (Nat.lt_succ_self _) ps o h kv hkv
  obtain ⟨w, _, _, hkb, _, _⟩ := parse_key_one hk
  refine ⟨fun c hc => (hkb c hc).1, ?_⟩
  rcases parse_value_one hv with ⟨w, q, _, _, hq, hval⟩ | ⟨w, t, _, _, ht, _, _, _, hval⟩
  · intro c hc
    rw [hval] at hc
    exact (hq c (mem_take_vlen hc)).1
  · intro c hc
    rw [hval] at hc
    exact (ht c (mem_take_vlen hc)).1

theorem field20_of_no_nul (s : List Nat) (hs : ∀ c ∈ s, c ≠ 0) :
    field20 s = s.take 20 ++ List.replicate (20 - min 20 s.length) 32 := by
  unfold field20
  rw [beforeNul_of_no_nul s hs, List.length_take]

theorem field20_length (s : List Nat) : (field20 s).length = 20 := by
  unfold field20
  rw [List.length_append, List.length_replicate, List.length_take]
  omega

theorem print_pair_length (key val : List Nat) : (print_pair key val).length = 42 := by
  unfold print_pair
  simp only [List.length_append, field20_length, List.length_singleton]

/-! ## Cursor movement -/

theorem Forward.length_le {p p2 : List Nat} (h : Forward p p2) :
    p2.length ≤ p.length ∧ p.length - p2.length ≤ (beforeNul p).length := by
  obtain ⟨pre, hp, hpre⟩ := h
  rw [hp, beforeNul_append_of_no_nul pre p2 hpre]
  simp only [List.length_append]
  omega

theorem skip_ws_forward (p : List Nat) : Forward p (skip_ws p) := by
  obtain ⟨w, hw1, hw2, _⟩ := skip_ws_decomp p
  exact ⟨w, hw1, fun c hc => (hw2 c hc).ne_zero⟩

theorem parse_key_forward (p key : List Nat) (sz : Nat) :
    Forward p (parse_key p key sz).2.1 := by
  rcases key_shape p with ⟨w, s, hp, hw, h0⟩ | ⟨w, k, r, hp, hw, hk, hr, h0, hws⟩
  · rw [hp, parse_key_compute0 w s key sz hw h0]
    exact ⟨w, rfl, fun c hc => (hw c hc).ne_zero⟩
  · have hwk : ∀ c ∈ w ++ k, c ≠ 0 := by
      intro c hc
      rcases List.mem_append.1 hc with hc | hc
      · exact (hw c hc).ne_zero
      · exact (hk c hc).1
    rw [hp, parse_key_compute w k r key sz hw hk hr h0 hws]
    by_cases h1 : cur r ≠ 58
    · simp only [if_pos h1]
      exact ⟨w ++ k, by simp, hwk⟩
    · by_cases h2 : k.length = 0 ∨ k.length ≥ sz
      · simp only [if_neg h1, if_pos h2]
        exact ⟨w ++ k, by simp, hwk⟩
      · simp only [if_neg h1, if_neg h2]
        have h58 : r = 58 :: r.tail := cur_eq_cons (not_not.1 h1) (by decide)
        refine ⟨w ++ k ++ [58], ?_, ?_⟩
        · conv_lhs => rw [h58]
          simp
        · intro c hc
          rcases List.mem_append.1 hc with hc | hc
          · exact hwk c hc
          · rw [List.mem_singleton.1 hc]; decide

theorem parse_value_forward (p val : List Nat) (sz : Nat) :
    Forward p (parse_value p val sz).2.1 := by
  rcases value_shape p with ⟨w, s, hp, hw, h0⟩ | ⟨w, q, r, hp, hw, hq, hr⟩ |
    ⟨w, t, r, hp, hw, ht, ht0, h34, hr⟩
  · rw [hp, parse_value_compute0 w s val sz hw h0]
    exact ⟨w, rfl, fun c hc => (hw c hc).ne_zero⟩
  · have hwq : ∀ c ∈ w ++ 34 :: q, c ≠ 0 := by
      intro c hc
      rcases List.mem_append.1 hc with hc | hc
      · exact (hw c hc).ne_zero
      · rcases List.mem_cons.1 hc with hc | hc
        · rw [hc]; decide
        · exact (hq c hc).1
    rw [hp, parse_value_compute_quoted w q r val sz hw hq hr]
    by_cases h1 : cur r ≠ 34
    · simp only [if_pos h1]
      exact ⟨w ++ 34 :: q, by simp, hwq⟩
    · simp only [if_neg h1]
      have h2 : r = 34 :: r.tail := cur_eq_cons (not_not.1 h1) (by decide)
      refine ⟨w ++ 34 :: q ++ [34], ?_, ?_⟩
      · conv_lhs => rw [h2]
        simp
      · intro c hc
        rcases List.mem_append.1 hc with hc | hc
        · exact hwq c hc
        · rw [List.mem_singleton.1 hc]; decide
  · rw [hp, parse_value_unquoted_success w t r val sz hw ht ht0 h34 hr]
    refine ⟨w ++ t, by simp, ?_⟩
    intro c hc
    rcases List.mem_append.1 hc with hc | hc
    · exact (hw c hc).ne_zero
    · exact (ht c hc).1

theorem InOrder.append_left {ss : List (List Nat)} {b : List Nat} (a : List Nat)
    (h : InOrder ss b) : InOrder ss (a ++ b) := by
  cases ss with
  | nil => trivial
  | cons s ss =>
    obtain ⟨pre, post, hb, hi⟩ := h
    exact ⟨a ++ pre, post, by rw [hb]; simp, hi⟩

/-- The emitted keys and values lie in the buffer one after the other. -/
theorem decode_inOrder : ∀ (n : Nat) (buf : List Nat), buf.length < n →
    ∀ ps o, decode buf = some (ps, o) → InOrder (spans ps) buf := by
  intro n
  induction n with
  | zero => intro buf hlen; exact absurd hlen (Nat.not_lt_zero _)
  | succ n ih =>
    intro buf hlen ps o hd
    rcases parse_key_cases buf [] 256 with ⟨_, h⟩ | ⟨r, h⟩ | ⟨w, k, r, hb, _, _, _, _, h⟩
    · rw [decode_done h] at hd
      simp only [Option.some.injEq, Prod.mk.injEq] at hd
      rw [← hd.1]; trivial
    · rw [decode_invalidKey h] at hd
      simp only [Option.some.injEq, Prod.mk.injEq] at hd
      rw [← hd.1]; trivial
    · have hl := parse_key_one_length h
      have hstep : ∀ r2 v mid rest, parse_value r [] 2048 = (1, r2, v) →
          r = mid ++ (v ++ (rest ++ r2)) → InOrder (spans ps) buf := by
        intro r2 v mid rest hv hr
        have hl2 := parse_value_one_length hv
        rw [decode_pair h hv] at hd
        obtain ⟨ps2, hps2, hpe⟩ := consPair_eq_some hd
        have hi := ih r2 (by omega) ps2 o hps2
        rw [hpe]
        refine ⟨w, 58 :: r, hb, 58 :: mid, rest ++ r2, ?_, hi.append_left rest⟩
        rw [hr]; simp
      rcases parse_value_cases r [] 2048 with ⟨r2, hv⟩ | ⟨w2, q, r2, hr, _, _, hv⟩ |
        ⟨w2, t, r2, hr, _, _, _, _, _, hv⟩
      · rw [decode_invalidValue h hv] at hd
        simp only [Option.some.injEq, Prod.mk.injEq] at hd
        rw [← hd.1]; trivial
      · refine hstep r2 _ (w2 ++ [34])
          (q.drop (if q.length ≥ 2048 then 2048 - 1 else q.length) ++ [34]) hv ?_
        have e : q ++ 34 :: r2 =
            q.take (if q.length ≥ 2048 then 2048 - 1 else q.length) ++
              (q.drop (if q.length ≥ 2048 then 2048 - 1 else q.length) ++ 34 :: r2) := by
          rw [← List.append_assoc, List.take_append_drop]
        rw [hr, e]
        simp only [List.append_assoc, List.cons_append, List.nil_append]
      · refine hstep r2 _ w2
          (t.drop (if t.length ≥ 2048 then 2048 - 1 else t.length)) hv ?_
        have e : t ++ r2 =
            t.take (if t.length ≥ 2048 then 2048 - 1 else t.length) ++
              (t.drop (if t.length ≥ 2048 then 2048 - 1 else t.length) ++ r2) := by
          rw [← List.append_assoc, List.take_append_drop]
        rw [hr, e]

/-! ## Rounds of the pair loop -/

theorem parse_value_skip_ws (w r val : List Nat) (sz : Nat) (hw : ∀ c ∈ w, IsWs c) :
    parse_value (w ++ r) val sz = parse_value r val sz := by
  unfold parse_value
  rw [skip_ws_append_ws w r hw]

theorem take_vlen_eq_take (v : List Nat) :
    v.take (if v.length ≥ 2048 then 2048 - 1 else v.length) = v.take 2047 := by
  by_cases h : v.length ≥ 2048
  · rw [if_pos h]
  · rw [if_neg h, List.take_length, List.take_of_length_le (by omega)]

/-- After `n` successful rounds the pair loop goes on as from the cursor it has
reached; the pairs of these rounds come first. -/
theorem rounds_decode : ∀ (n : Nat) (buf : List Nat) (ps : List (List Nat × List Nat))
    (q : List Nat), rounds n buf = some (ps, q) →
    ∀ qs o, decode q = some (qs, o) → decode buf = some (ps ++ qs, o) := by
  intro n
  induction n with
  | zero =>
    intro buf ps q h qs o hq
    simp only [rounds, Option.some.injEq, Prod.mk.injEq] at h
    rw [← h.1, h.2, hq, List.nil_append]
  | succ n ih =>
    intro buf ps q h qs o hq
    rcases parse_key_cases buf [] 256 with ⟨_, hk⟩ | ⟨r, hk⟩ | ⟨w, k, r, _, _, _, _, _, hk⟩
    · simp [rounds, hk] at h
    · simp [rounds, hk] at h
    · have hstep : ∀ r2 v, parse_value r [] 2048 = (1, r2, v) →
          decode buf = some (ps ++ qs, o) := by
        intro r2 v hv
        simp only [rounds, hk, hv] at h
        cases hr : rounds n r2 with
        | none => rw [hr] at h; simp at h
        | some res =>
          obtain ⟨ps2, q2⟩ := res
          rw [hr] at h
          simp at h
          obtain ⟨h1, h2⟩ := h
          rw [h2] at hr
          rw [decode_pair hk hv, ih r2 ps2 q hr qs o hq, ← h1]
          rfl
      rcases parse_value_cases r [] 2048 with ⟨r2, hv⟩ | ⟨_, q0, r2, _, _, _, hv⟩ |
        ⟨_, t, r2, _, _, _, _, _, _, hv⟩
      · simp [rounds, hk, hv] at h
      · exact hstep _ _ hv
      · exact hstep _ _ hv

/-- Every round that emits a pair moves the cursor by at least 3 bytes. -/
theorem round_advance {p p1 k p2 v : List Nat} (h : parse_key p [] 256 = (1, p1, k))
    (hv : parse_value p1 [] 2048 = (1, p2, v)) : p2.length + 3 ≤ p.length := by
  obtain ⟨w, hp, _, _, hk0, _⟩ := parse_key_one h
  have hkl : 0 < k.length := List.length_pos.2 hk0
  have hpl : p.length = w.length + (k.length + (p1.length + 1)) := by
    rw [hp]; simp only [List.length_append, List.length_cons]
  rcases parse_value_one hv with ⟨w2, q, hp1, _⟩ | ⟨w2, t, hp1, _, _, ht0, _⟩
  · have : p1.length = w2.length + (q.length + (p2.length + 1) + 1) := by
      rw [hp1]; simp only [List.length_append, List.length_cons]
    omega
  · have htl : 0 < t.length := List.length_pos.2 ht0
    have : p1.length = w2.length + (t.length + p2.length) := by
      rw [hp1]; simp only [List.length_append]
    omega

/-- The number of emitted pairs is at most a third of the number of bytes. -/
theorem decode_pairs_bound : ∀ (n : Nat) (buf : List Nat), buf.length < n →
    ∀ ps o, decode buf = some (ps, o) → 3 * ps.length ≤ buf.length := by
  intro n
  induction n with
  | zero => intro buf hlen; exact absurd hlen (Nat.not_lt_zero _)
  | succ n ih =>
    intro buf hlen ps o hd
    rcases parse_key_cases buf [] 256 with ⟨_, h⟩ | ⟨r, h⟩ | ⟨w, k, r, _, _, _, _, _, h⟩
    · rw [decode_done h] at hd
      simp only [Option.some.injEq, Prod.mk.injEq] at hd
      rw [← hd.1]; simp
    · rw [decode_invalidKey h] at hd
      simp only [Option.some.injEq, Prod.mk.injEq] at hd
      rw [← hd.1]; simp
    · have hstep : ∀ r2 v, parse_value r [] 2048 = (1, r2, v) →
          3 * ps.length ≤ buf.length := by
        intro r2 v hv
        have hadv := round_advance h hv
        rw [decode_pair h hv] at hd
        obtain ⟨ps2, hps2, hpe⟩ := consPair_eq_some hd
        have hi := ih r2 (by omega) ps2 o hps2
        rw [hpe, List.length_cons]
        omega
      rcases parse_value_cases r [] 2048 with ⟨r2, hv⟩ | ⟨_, q, r2, _, _, _, hv⟩ |
        ⟨_, t, r2, _, _, _, _, _, _, hv⟩
      · rw [decode_invalidValue h hv] at hd
        simp only [Option.some.injEq, Prod.mk.injEq] at hd
        rw [← hd.1]; simp
      · exact hstep _ _ hv
      · exact hstep _ _ hv

/-- A `':'` where a key must start makes `parse_key` fail. -/
theorem parse_key_empty_key (w r key : List Nat) (sz : Nat) (hw : ∀ c ∈ w, IsWs c) :
    parse_key (w ++ 58 :: r) key sz = (-1, 58 :: r, key) := by
  have h := parse_key_compute w [] (58 :: r) key sz hw (by simp) (by rw [cur_cons]; decide)
    (by rw [List.nil_append, cur_cons]; decide) (by rw [List.nil_append, cur_cons]; decide)
  rw [List.nil_append] at h
  rw [h, if_neg (by rw [cur_cons]; decide), if_pos (Or.inl List.length_nil)]

theorem validUnquoted_ne_nil {v : List Nat} (h : ValidUnquoted v) : v ≠ [] := by
  intro e; rw [e] at h; exact absurd h.1 (by decide)

/-- The buffer `k1:"q"k2:v`: two pairs, the first value cut to 2047 bytes. -/
theorem decode_quoted_then_token (k1 k2 q v : List Nat) (hk1 : ValidKey k1)
    (hk2 : ValidKey k2) (hq : ∀ c ∈ q, QuotByte c) (hv : ValidUnquoted v) :
    decode (k1 ++ 58 :: 34 :: (q ++ 34 :: (k2 ++ 58 :: v))) =
      some ([(k1, q.take 2047), (k2, v)], Outcome.done) := by
  have h2 := decode_unquoted_token k2 v [] hk2 hv.2.2.1 (validUnquoted_ne_nil hv) hv.2.2.2 (by decide)
  rw [List.append_nil, take_vlen_of_le v hv.2.1, decode_nil] at h2
  rw [decode_quoted_token k1 q _ hk1 hq, take_vlen_eq_take, h2]
  rfl

/-! ## The round that emits a given pair -/

theorem rounds_pair {p p1 k p2 v : List Nat} (n : Nat)
    (h : parse_key p [] 256 = (1, p1, k)) (hv : parse_value p1 [] 2048 = (1, p2, v)) :
    rounds (n + 1) p =
      (rounds n p2).map (fun r => ((k, v) :: r.1, r.2)) := by
  simp only [rounds, h, hv]
  cases rounds n p2 with
  | none => simp
  | some r => simp

/-- The pair number `i` of a decoded buffer is emitted by round `i + 1` of the
pair loop: after `i` rounds, which emitted the first `i` pairs, the loop is at a
cursor `p` inside the buffer where `parse_key` returns the key and `parse_value`,
called at the cursor `parse_key` left, returns the value. -/
theorem decode_round_at : ∀ (i : Nat) (buf : List Nat) (ps : List (List Nat × List Nat))
    (o : Outcome) (kv : List Nat × List Nat), decode buf = some (ps, o) →
    ps.get? i = some kv →
    ∃ pre p p1 p2, buf = pre ++ p ∧ rounds i buf = some (ps.take i, p) ∧
      parse_key p [] 256 = (1, p1, kv.1) ∧ parse_value p1 [] 2048 = (1, p2, kv.2) := by
  intro i
  induction i with
  | zero =>
    intro buf ps o kv hd hkv
    rcases parse_key_cases buf [] 256 with ⟨_, h⟩ | ⟨r, h⟩ | ⟨w, k, r, _, _, _, _, _, h⟩
    · rw [decode_done h] at hd
      simp only [Option.some.injEq, Prod.mk.injEq] at hd
      rw [← hd.1] at hkv; simp at hkv
    · rw [decode_invalidKey h] at hd
      simp only [Option.some.injEq, Prod.mk.injEq] at hd
      rw [← hd.1] at hkv; simp at hkv
    · have hstep : ∀ r2 v, parse_value r [] 2048 = (1, r2, v) →
          ∃ pre p p1 p2, buf = pre ++ p ∧ rounds 0 buf = some (ps.take 0, p) ∧
            parse_key p [] 256 = (1, p1, kv.1) ∧ parse_value p1 [] 2048 = (1, p2, kv.2) := by
        intro r2 v hv
        rw [decode_pair h hv] at hd
        obtain ⟨ps2, _, hpe⟩ := consPair_eq_some hd
        rw [hpe, List.get?_cons_zero, Option.some.injEq] at hkv
        rw [← hkv]
        exact ⟨[], buf, r, r2, rfl, rfl, h, hv⟩
      rcases parse_value_cases r [] 2048 with ⟨r2, hv⟩ | ⟨_, q, r2, _, _, _, hv⟩ |
        ⟨_, t, r2, _, _, _, _, _, _, hv⟩
      · rw [decode_invalidValue h hv] at hd
        simp only [Option.some.injEq, Prod.mk.injEq] at hd
        rw [← hd.1] at hkv; simp at hkv
      · exact hstep _ _ hv
      · exact hstep _ _ hv
  | succ i ih =>
    intro buf ps o kv hd hkv
    rcases parse_key_cases buf [] 256 with ⟨_, h⟩ | ⟨r, h⟩ | ⟨w, k, r, _, _, _, _, _, h⟩
    · rw [decode_done h] at hd
      simp only [Option.some.injEq, Prod.mk.injEq] at hd
      rw [← hd.1] at hkv; simp at hkv
    · rw [decode_invalidKey h] at hd
      simp only [Option.some.injEq, Prod.mk.injEq] at hd
      rw [← hd.1] at hkv; simp at hkv
    · obtain ⟨pre1, hpre1⟩ := parse_key_one_suffix h
      have hstep : ∀ r2 v, parse_value r [] 2048 = (1, r2, v) →
          ∃ pre p p1 p2, buf = pre ++ p ∧ rounds (i + 1) buf = some (ps.take (i + 1), p) ∧
            parse_key p [] 256 = (1, p1, kv.1) ∧ parse_value p1 [] 2048 = (1, p2, kv.2) := by
        intro r2 v hv
        obtain ⟨pre2, hpre2⟩ := parse_value_one_suffix hv
        rw [decode_pair h hv] at hd
        obtain ⟨ps2, hps2, hpe⟩ := consPair_eq_some hd
        rw [hpe, List.get?_cons_succ] at hkv
        obtain ⟨pre, p, p1, p2, hb, hr, hk1, hv1⟩ := ih r2 ps2 o kv hps2 hkv
        refine ⟨pre1 ++ pre2 ++ pre, p, p1, p2, ?_, ?_, hk1, hv1⟩
        · rw [hpre1, hpre2, hb]; simp
        · rw [rounds_pair i h hv, hr, hpe]
          rfl
      rcases parse_value_cases r [] 2048 with ⟨r2, hv⟩ | ⟨_, q, r2, _, _, _, hv⟩ |
        ⟨_, t, r2, _, _, _, _, _, _, hv⟩
      · rw [decode_invalidValue h hv] at hd
        simp only [Option.some.injEq, Prod.mk.injEq] at hd
        rw [← hd.1] at hkv; simp at hkv
      · exact hstep _ _ hv
      · exact hstep _ _ hv

theorem skip_ws_key_span {w k r : List Nat} (hw : ∀ c ∈ w, IsWs c)
    (hk : ∀ c ∈ k, KeyByte c) (hk0 : k ≠ []) :
    skip_ws (w ++ (k ++ 58 :: r)) = k ++ 58 :: r := by
  rw [skip_ws_append_ws w _ hw]
  refine skip_ws_of_not_ws _ ?_
  rw [cur_append_of_ne_nil _ hk0]
  exact (hk _ (cur_mem hk0)).2.2

theorem length_take_vlen_pos {t : List Nat} (h : t ≠ []) :
    1 ≤ (t.take (if t.length ≥ 2048 then 2048 - 1 else t.length)).length := by
  have hl : 0 < t.length := List.length_pos.2 h
  rw [List.length_take]
  by_cases h2 : t.length ≥ 2048
  · rw [if_pos h2]; omega
  · rw [if_neg h2]; omega

/-! ## The claims -/

/-- C1: for every list of tokens `(k, v)` whose keys have 1..255 bytes and whose
values have 1..2047 bytes, no byte being space, tab, CR, LF, `':'`, `'"'` or NUL,
decoding the buffer `k1:v1 k2:v2 ... kn:vn` (tokens joined by one space) yields
exactly these pairs, in order, and no error. -/
theorem C1_wellformed_buffer_decodes (toks : List (List Nat × List Nat))
    (h : ∀ kv ∈ toks, WellFormedToken kv) :
    decode (joinTokens toks) = some (toks, Outcome.done) := by
  induction toks with
  | nil => rfl
  | cons kv t ih =>
    obtain ⟨k, v⟩ := kv
    have hkv : WellFormedToken (k, v) := h _ (List.mem_cons_self _ _)
    obtain ⟨hk1, hk2, hv1, hv2, hkb, hvb⟩ := hkv
    simp only at hk1 hk2 hv1 hv2 hkb hvb
    have hk : ValidKey k := ⟨hk1, hk2, fun c hc => (hkb c hc).keyByte⟩
    have hvt : ∀ c ∈ v, TokByte c := fun c hc => (hvb c hc).tokByte
    have hv0 : v ≠ [] := by
      intro e; rw [e] at hv1; exact Nat.not_succ_le_zero 0 hv1
    have ih2 := ih (fun kv hkv => h kv (List.mem_cons_of_mem _ hkv))
    cases t with
    | nil =>
      have := decode_unquoted_token k v [] hk hvt hv0 (cur_ne_of_plain hvb) (by decide)
      rw [List.append_nil, take_vlen_of_le v hv2, decode_nil] at this
      exact this
    | cons kv2 t2 =>
      have := decode_unquoted_token k v (32 :: joinTokens (kv2 :: t2)) hk hvt hv0
        (cur_ne_of_plain hvb) (by rw [cur_cons]; decide)
      have hsp : decode (32 :: joinTokens (kv2 :: t2)) = decode (joinTokens (kv2 :: t2)) :=
        decode_skip_ws [32] _ (by decide)
      rw [take_vlen_of_le v hv2, hsp, ih2] at this
      have hj : joinTokens ((k, v) :: kv2 :: t2) =
          k ++ 58 :: (v ++ 32 :: joinTokens (kv2 :: t2)) := by
        simp [joinTokens]
      rw [hj, this]
      rfl

/-- C1 at `a:1 b:2`. -/
theorem C1_wellformed_buffer_decodes_witness :
    decode (joinTokens [(bytes "a", bytes "1"), (bytes "b", bytes "2")]) =
      some ([(bytes "a", bytes "1"), (bytes "b", bytes "2")], Outcome.done) :=
  C1_wellformed_buffer_decodes _ (by decide)

/-- C2 (as amended): an over-long key is rejected, not truncated.  For every
buffer made of a span of bytes, none of them whitespace, `':'` or NUL, then `':'`,
then anything: when the span has exactly 255 bytes `parse_key` succeeds, the key is
the whole span and the cursor is left after the `':'`; when the span has 256 or
more bytes `parse_key` returns -1 with the cursor left on the `':'`, and decoding
yields no pair and a key-format error. -/
theorem C2_long_key_rejected (k r : List Nat) (hk : ∀ c ∈ k, KeyByte c) :
    (k.length = 255 → parse_key (k ++ 58 :: r) [] 256 = (1, r, k)) ∧
    (256 ≤ k.length →
      parse_key (k ++ 58 :: r) [] 256 = (-1, 58 :: r, []) ∧
        decode (k ++ 58 :: r) = some ([], Outcome.invalidKey)) := by
  constructor
  · intro h255
    have hk0 : k ≠ [] := by
      intro e; rw [e, List.length_nil] at h255; omega
    have := parse_key_success [] k r [] 256 (by simp) hk hk0 (by omega)
    rwa [List.nil_append] at this
  · intro h256
    have := parse_key_too_long [] k r [] 256 (by simp) hk h256 (by decide)
    rw [List.nil_append] at this
    exact ⟨this, decode_invalidKey this⟩

/-- C2 (as amended) at keys of 255 and of 256 bytes `a`, each followed by `:1`. -/
theorem C2_long_key_rejected_witness :
    parse_key (List.replicate 255 97 ++ 58 :: bytes "1") [] 256 =
        (1, bytes "1", List.replicate 255 97) ∧
      (parse_key (List.replicate 256 97 ++ 58 :: bytes "1") [] 256 =
          (-1, 58 :: bytes "1", []) ∧
        decode (List.replicate 256 97 ++ 58 :: bytes "1") = some ([], Outcome.invalidKey)) :=
  ⟨(C2_long_key_rejected (List.replicate 255 97) (bytes "1")
      (keyByte_of_mem_replicate 255)).1 (by rw [List.length_replicate]),
   (C2_long_key_rejected (List.replicate 256 97) (bytes "1")
      (keyByte_of_mem_replicate 256)).2 (by rw [List.length_replicate])⟩

/-- C2 as stated fails: a key of 300 bytes `a` followed by `:1` is not decoded
to a pair with a 254-byte key; the decoder emits no pair and reports a key-format
error. -/
theorem C2_counterexample :
    decode (List.replicate 300 97 ++ 58 :: bytes "1") = some ([], Outcome.invalidKey) ∧
      decode (List.replicate 300 97 ++ 58 :: bytes "1") ≠
        some ([(List.replicate 254 97, bytes "1")], Outcome.done) := by
  have h := decode_key_too_long (List.replicate 300 97) (bytes "1")
    (keyByte_of_mem_replicate 300) (by rw [List.length_replicate]; omega)
  refine ⟨h, ?_⟩
  rw [h]
  intro h2
  cases h2

/-- C3: a value span of 2048 or more bytes is truncated to its first 2047 bytes
and the cursor still passes the whole span.  Quoted mode (content without `'"'`
and NUL): `parse_value` succeeds and leaves the cursor after the closing quote.
Unquoted mode (a run without whitespace and NUL that does not start with `'"'`,
followed by whitespace, NUL or the end of the buffer): `parse_value` succeeds and
leaves the cursor at the end of the run.  In both modes, after a valid key `k` the
pair loop emits the truncated pair and goes on decoding what follows the span. -/
theorem C3_value_truncated (k s rest : List Nat) (hk : ValidKey k)
    (hlen : 2048 ≤ s.length) :
    ((∀ c ∈ s, QuotByte c) →
      parse_value (34 :: (s ++ 34 :: rest)) [] 2048 = (1, rest, s.take 2047) ∧
      decode (k ++ 58 :: 34 :: (s ++ 34 :: rest)) = consPair (k, s.take 2047) (decode rest)) ∧
    ((∀ c ∈ s, TokByte c) → cur s ≠ 34 → ¬ TokByte (cur rest) →
      parse_value (s ++ rest) [] 2048 = (1, rest, s.take 2047) ∧
      decode (k ++ 58 :: (s ++ rest)) = consPair (k, s.take 2047) (decode rest)) := by
  have hs0 : s ≠ [] := by
    intro e; rw [e] at hlen; exact absurd hlen (by decide)
  constructor
  · intro hq
    constructor
    · have := parse_value_quoted_success [] s rest [] 2048 (by simp) hq
      rw [take_vlen_of_ge s hlen, List.nil_append] at this
      exact this
    · have := decode_quoted_token k s rest hk hq
      rw [take_vlen_of_ge s hlen] at this
      exact this
  · intro ht h34 hr
    constructor
    · have := parse_value_unquoted_success [] s rest [] 2048 (by simp) ht hs0 h34 hr
      rw [take_vlen_of_ge s hlen, List.nil_append] at this
      exact this
    · have := decode_unquoted_token k s rest hk ht hs0 h34 hr
      rw [take_vlen_of_ge s hlen] at this
      exact this

/-- C3 at the key `a` and a span of 2048 bytes `x`, quoted and unquoted, followed
by ` b:2`: the value is the first 2047 bytes and the pair `("b", "2")` is still
decoded. -/
theorem C3_value_truncated_witness :
    (parse_value (34 :: (List.replicate 2048 120 ++ 34 :: bytes " b:2")) [] 2048 =
        (1, bytes " b:2", (List.replicate 2048 120).take 2047) ∧
      decode (bytes "a" ++ 58 :: 34 :: (List.replicate 2048 120 ++ 34 :: bytes " b:2")) =
        some ([(bytes "a", (List.replicate 2048 120).take 2047), (bytes "b", bytes "2")],
          Outcome.done)) ∧
    (parse_value (List.replicate 2048 120 ++ bytes " b:2") [] 2048 =
        (1, bytes " b:2", (List.replicate 2048 120).take 2047) ∧
      decode (bytes "a" ++ 58 :: (List.replicate 2048 120 ++ bytes " b:2")) =
        some ([(bytes "a", (List.replicate 2048 120).take 2047), (bytes "b", bytes "2")],
          Outcome.done)) :=
  ⟨(C3_value_truncated (bytes "a") (List.replicate 2048 120) (bytes " b:2") (by decide)
      (by rw [List.length_replicate])).1 (quotByte_of_mem_replicate 2048),
   (C3_value_truncated (bytes "a") (List.replicate 2048 120) (bytes " b:2") (by decide)
      (by rw [List.length_replicate])).2 (tokByte_of_mem_replicate 2048)
      (by decide) (by decide)⟩

/-- C4: quoted values keep their internal whitespace.  For every valid key `k`
and every content `q` of at most 2047 bytes without `'"'` and NUL, decoding
`k:"q" b:2` yields exactly the pairs `(k, q)` and `("b", "2")` and no error. -/
theorem C4_quoted_value_keeps_whitespace (k q : List Nat) (hk : ValidKey k)
    (hq : ∀ c ∈ q, QuotByte c) (hlen : q.length ≤ 2047) :
    decode (k ++ 58 :: 34 :: (q ++ 34 :: bytes " b:2")) =
      some ([(k, q), (bytes "b", bytes "2")], Outcome.done) := by
  have h := decode_quoted_token k q (bytes " b:2") hk hq
  rw [take_vlen_of_le q hlen] at h
  have hb : decode (bytes " b:2") = some ([(bytes "b", bytes "2")], Outcome.done) := by
    decide
  rw [h, hb]
  rfl

/-- C4 at `a:"hello world" b:2`. -/
theorem C4_quoted_value_keeps_whitespace_witness :
    decode (bytes "a:\"hello world\" b:2") =
      some ([(bytes "a", bytes "hello world"), (bytes "b", bytes "2")], Outcome.done) :=
  C4_quoted_value_keeps_whitespace (bytes "a") (bytes "hello world") (by decide) (by decide)
    (by decide)

/-- C5: pairs emitted before an error stand.  For every NUL-free buffer `b1`
that decodes without error to the pairs `P` and every buffer `b2` that decodes to
the pairs `Q` with outcome `e`, decoding `b1`, a space, `b2` yields `P ++ Q` with
the same outcome `e`. -/
theorem C5_pairs_before_error_stand (b1 b2 : List Nat) (P Q : List (List Nat × List Nat))
    (e : Outcome) (hnul : ∀ c ∈ b1, c ≠ 0) (h1 : decode b1 = some (P, Outcome.done))
    (h2 : decode b2 = some (Q, e)) :
    decode (b1 ++ 32 :: b2) = some (P ++ Q, e) :=
  decode_append_space b2 Q e h2 (b1.length + 1) b1 (Nat.lt_succ_self _) hnul P h1

/-- C5 at `a:1 b:2` followed by `c`: the buffer `a:1 b:2 c` yields the pairs
`("a","1")`, `("b","2")` and then a key-format error. -/
theorem C5_pairs_before_error_stand_witness :
    decode (bytes "a:1 b:2" ++ 32 :: bytes "c") =
      some ([(bytes "a", bytes "1"), (bytes "b", bytes "2")] ++ [], Outcome.invalidKey) :=
  C5_pairs_before_error_stand (bytes "a:1 b:2") (bytes "c")
    [(bytes "a", bytes "1"), (bytes "b", bytes "2")] [] Outcome.invalidKey
    (by decide) (by decide) (by decide)

/-- C6: an unterminated quote.  For every valid key `k` and every content `c`
without `'"'`, decoding `k:"c` yields no pair and a value-format error naming
the key `k`. -/
theorem C6_unterminated_quote (k c : List Nat) (hk : ValidKey k) (hc : ∀ x ∈ c, x ≠ 34) :
    decode (k ++ 58 :: 34 :: c) = some ([], Outcome.invalidValue k) := by
  have h1 : parse_key (k ++ 58 :: 34 :: c) [] 256 = (1, 34 :: c, k) := by
    have := parse_key_success [] k (34 :: c) [] 256 (by simp) hk.2.2 hk.ne_nil
      (by have := hk.2.1; omega)
    rwa [List.nil_append] at this
  obtain ⟨r, hv⟩ := parse_value_unterminated [] c [] 2048 (by simp) hc
  rw [List.nil_append] at hv
  exact decode_invalidValue h1 hv

/-- C6 at `a:"oops`. -/
theorem C6_unterminated_quote_witness :
    decode (bytes "a:\"oops") = some ([], Outcome.invalidValue (bytes "a")) :=
  C6_unterminated_quote (bytes "a") (bytes "oops") (by decide) (by decide)

/-- C7: a missing colon.  For every buffer that, after optional leading
whitespace `w`, begins with a non-empty run of bytes that are not whitespace,
`':'` or NUL, followed by the end of the buffer or by a whitespace byte, decoding
yields no pair and a key-format error, whatever follows. -/
theorem C7_missing_colon (w run rest : List Nat) (hw : ∀ c ∈ w, IsWs c)
    (hrun : ∀ c ∈ run, KeyByte c) (hne : run ≠ []) (hrest : rest = [] ∨ IsWs (cur rest)) :
    decode (w ++ run ++ rest) = some ([], Outcome.invalidKey) := by
  have hr : ¬ KeyByte (cur rest) := by
    rcases hrest with h | h
    · rw [h]; decide
    · exact fun hkb => hkb.2.2 h
  have h58 : cur rest ≠ 58 := by
    rcases hrest with h | h
    · rw [h]; decide
    · intro e; rw [e] at h; exact absurd h (by decide)
  have := parse_key_no_colon w run rest [] 256 hw hrun hne hr h58
  rw [← List.append_assoc] at this
  exact decode_invalidKey this

/-- C7 at `abc def:1`. -/
theorem C7_missing_colon_witness :
    decode ([] ++ bytes "abc" ++ bytes " def:1") = some ([], Outcome.invalidKey) :=
  C7_missing_colon [] (bytes "abc") (bytes " def:1") (by decide) (by decide) (by decide)
    (by decide)

/-- C8: for every buffer that is empty or made only of space, tab, CR and LF
bytes, `parse_key` returns end-of-input on its first call and decoding yields
no pair and no error. -/
theorem C8_blank_buffer (buf : List Nat) (h : ∀ c ∈ buf, IsWs c) :
    parse_key buf [] 256 = (0, [], []) ∧ decode buf = some ([], Outcome.done) :=
  ⟨parse_key_all_ws buf [] 256 h, decode_done (parse_key_all_ws buf [] 256 h)⟩

/-- C8 at the buffer space, tab, CR, LF. -/
theorem C8_blank_buffer_witness :
    parse_key [32, 9, 13, 10] [] 256 = (0, [], []) ∧
      decode [32, 9, 13, 10] = some ([], Outcome.done) :=
  C8_blank_buffer [32, 9, 13, 10] (by decide)

/-- C9 (as amended): every value the decoder emits, for every input buffer, has
at most 2047 bytes.  The pair number `i` is emitted by round `i + 1` of the pair
loop, whose `parse_value` call starts at the cursor `p1` left by `parse_key`: when
that value is read in unquoted mode (the byte after the skipped whitespace is not
`'"'`) it has between 1 and 2047 bytes; an empty value is emitted only in quoted
mode, for an empty quoted string: the bytes after the skipped whitespace are then
two consecutive `'"'`, which the buffer contains. -/
theorem C9_value_length (buf : List Nat) (ps : List (List Nat × List Nat)) (o : Outcome)
    (i : Nat) (kv : List Nat × List Nat) (h : decode buf = some (ps, o))
    (hkv : ps.get? i = some kv) :
    kv.2.length ≤ 2047 ∧
      ∃ p p1 p2, rounds i buf = some (ps.take i, p) ∧
        parse_key p [] 256 = (1, p1, kv.1) ∧ parse_value p1 [] 2048 = (1, p2, kv.2) ∧
        (cur (skip_ws p1) ≠ 34 → 1 ≤ kv.2.length ∧ kv.2.length ≤ 2047) ∧
        (kv.2 = [] → skip_ws p1 = 34 :: 34 :: p2 ∧
          ∃ pre, buf = pre ++ 34 :: 34 :: p2) := by
  obtain ⟨pre, p, p1, p2, hb, hr, hk, hv⟩ := decode_round_at i buf ps o kv h hkv
  obtain ⟨pre1, hpre1⟩ := parse_key_one_suffix hk
  rcases parse_value_one hv with ⟨w, q, hp1, hw, _, hval⟩ |
    ⟨w, t, hp1, hw, ht, ht0, h34, _, hval⟩
  · have hs : skip_ws p1 = 34 :: (q ++ 34 :: p2) := by
      rw [hp1, skip_ws_append_ws w _ hw]
      exact skip_ws_of_not_ws _ (by rw [cur_cons]; decide)
    have hlen : kv.2.length ≤ 2047 := by rw [hval]; exact length_take_vlen_le q
    refine ⟨hlen, p, p1, p2, hr, hk, hv, ?_, ?_⟩
    · intro hc
      rw [hs, cur_cons] at hc
      exact absurd rfl hc
    · intro he
      rw [hval] at he
      have hq := take_vlen_eq_nil he
      rw [hq, List.nil_append] at hs hp1
      refine ⟨hs, pre ++ pre1 ++ w, ?_⟩
      rw [hb, hpre1, hp1]; simp
  · have hlen : kv.2.length ≤ 2047 := by rw [hval]; exact length_take_vlen_le t
    have hpos : 1 ≤ kv.2.length := by rw [hval]; exact length_take_vlen_pos ht0
    refine ⟨hlen, p, p1, p2, hr, hk, hv, fun _ => ⟨hpos, hlen⟩, ?_⟩
    intro he
    rw [he, List.length_nil] at hpos
    exact absurd hpos (by decide)

/-- C9 (as amended) at `a:"" b:2`: the pair number 0, `("a", "")`, has an empty
value read in quoted mode, and the pair number 1, `("b", "2")`, has a value read
in unquoted mode. -/
theorem C9_value_length_witness :
    ((([] : List Nat)).length ≤ 2047 ∧
      ∃ p p1 p2, rounds 0 (bytes "a:\"\" b:2") =
          some ([(bytes "a", []), (bytes "b", bytes "2")].take 0, p) ∧
        parse_key p [] 256 = (1, p1, bytes "a") ∧ parse_value p1 [] 2048 = (1, p2, []) ∧
        (cur (skip_ws p1) ≠ 34 →
          1 ≤ (([] : List Nat)).length ∧ (([] : List Nat)).length ≤ 2047) ∧
        (([] : List Nat) = [] → skip_ws p1 = 34 :: 34 :: p2 ∧
          ∃ pre, bytes "a:\"\" b:2" = pre ++ 34 :: 34 :: p2)) ∧
    ((bytes "2").length ≤ 2047 ∧
      ∃ p p1 p2, rounds 1 (bytes "a:\"\" b:2") =
          some ([(bytes "a", []), (bytes "b", bytes "2")].take 1, p) ∧
        parse_key p [] 256 = (1, p1, bytes "b") ∧
        parse_value p1 [] 2048 = (1, p2, bytes "2") ∧
        (cur (skip_ws p1) ≠ 34 → 1 ≤ (bytes "2").length ∧ (bytes "2").length ≤ 2047) ∧
        (bytes "2" = [] → skip_ws p1 = 34 :: 34 :: p2 ∧
          ∃ pre, bytes "a:\"\" b:2" = pre ++ 34 :: 34 :: p2)) :=
  ⟨C9_value_length (bytes "a:\"\" b:2") [(bytes "a", []), (bytes "b", bytes "2")]
      Outcome.done 0 (bytes "a", []) (by decide) (by decide),
   C9_value_length (bytes "a:\"\" b:2") [(bytes "a", []), (bytes "b", bytes "2")]
      Outcome.done 1 (bytes "b", bytes "2") (by decide) (by decide)⟩

/-- C9 as stated fails: decoding `a:""` emits the pair `("a", "")`, whose value
has length 0, without any error. -/
theorem C9_counterexample :
    decode (bytes "a:\"\"") = some ([(bytes "a", [])], Outcome.done) ∧
      ¬ (1 ≤ (([] : List Nat)).length) := by
  decide

/-- C10: every key the decoder emits, for every input buffer, has between 1 and
255 bytes, contains no space, tab, CR, LF or `':'` byte, and is exactly the bytes
of the buffer between the cursor position after whitespace skipping and the first
following `':'`.  The pair number `i` is emitted by round `i + 1` of the pair
loop: after `i` rounds, which emitted the first `i` pairs, the loop is at the
cursor `p` inside the buffer; `parse_key` called there returns the key, and the
bytes from `skip_ws p` on are the key, a `':'` and the cursor `parse_key` left. -/
theorem C10_key_shape (buf : List Nat) (ps : List (List Nat × List Nat)) (o : Outcome)
    (i : Nat) (kv : List Nat × List Nat) (h : decode buf = some (ps, o))
    (hkv : ps.get? i = some kv) :
    1 ≤ kv.1.length ∧ kv.1.length ≤ 255 ∧
      (∀ c ∈ kv.1, c ≠ 32 ∧ c ≠ 9 ∧ c ≠ 13 ∧ c ≠ 10 ∧ c ≠ 58) ∧
      ∃ pre p rest, buf = pre ++ p ∧ rounds i buf = some (ps.take i, p) ∧
        parse_key p [] 256 = (1, rest, kv.1) ∧ skip_ws p = kv.1 ++ 58 :: rest := by
  obtain ⟨pre, p, p1, p2, hb, hr, hk, _⟩ := decode_round_at i buf ps o kv h hkv
  obtain ⟨w, hp, hw, hkb, hk0, hlen⟩ := parse_key_one hk
  have hpos : 0 < kv.1.length := List.length_pos.2 hk0
  refine ⟨hpos, by omega, ?_, pre, p, p1, hb, hr, hk, ?_⟩
  · intro c hc
    have := (keyByte_iff c).1 (hkb c hc)
    omega
  · rw [hp]
    exact skip_ws_key_span hw hkb hk0

/-- C10 at `hello:1  cd:2`, for the pair number 1, `("cd", "2")`, read by the
second round. -/
theorem C10_key_shape_witness :
    1 ≤ (bytes "cd").length ∧ (bytes "cd").length ≤ 255 ∧
      (∀ c ∈ bytes "cd", c ≠ 32 ∧ c ≠ 9 ∧ c ≠ 13 ∧ c ≠ 10 ∧ c ≠ 58) ∧
      ∃ pre p rest, bytes "hello:1  cd:2" = pre ++ p ∧
        rounds 1 (bytes "hello:1  cd:2") =
          some ([(bytes "hello", bytes "1"), (bytes "cd", bytes "2")].take 1, p) ∧
        parse_key p [] 256 = (1, rest, bytes "cd") ∧ skip_ws p = bytes "cd" ++ 58 :: rest :=
  C10_key_shape (bytes "hello:1  cd:2") [(bytes "hello", bytes "1"), (bytes "cd", bytes "2")]
    Outcome.done 1 (bytes "cd", bytes "2") (by decide) (by decide)

/-- C11: for every decoded pair `(key, value)`, the line `print_pair` writes has
exactly 42 bytes: the first `min 20 |key|` bytes of the key padded with spaces to
20, one space, the first `min 20 |value|` bytes of the value padded with spaces to
20, and a line feed. -/
theorem C11_print_pair_line (buf : List Nat) (ps : List (List Nat × List Nat)) (o : Outcome)
    (kv : List Nat × List Nat) (h : decode buf = some (ps, o)) (hkv : kv ∈ ps) :
    (print_pair kv.1 kv.2).length = 42 ∧
      print_pair kv.1 kv.2 =
        kv.1.take 20 ++ List.replicate (20 - min 20 kv.1.length) 32 ++ [32] ++
          (kv.2.take 20 ++ List.replicate (20 - min 20 kv.2.length) 32) ++ [10] := by
  obtain ⟨h1, h2⟩ := decode_mem_no_nul buf ps o kv h hkv
  refine ⟨print_pair_length _ _, ?_⟩
  unfold print_pair
  rw [field20_of_no_nul kv.1 h1, field20_of_no_nul kv.2 h2]

/-- C11 at the buffer `name:"hello brave new world, hello"`, whose value has
more than 20 bytes. -/
theorem C11_print_pair_line_witness :
    (print_pair (bytes "name") (bytes "hello brave new world, hello")).length = 42 ∧
      print_pair (bytes "name") (bytes "hello brave new world, hello") =
        (bytes "name").take 20 ++ List.replicate (20 - min 20 (bytes "name").length) 32 ++
          [32] ++
          ((bytes "hello brave new world, hello").take 20 ++
            List.replicate (20 - min 20 (bytes "hello brave new world, hello").length) 32) ++
          [10] :=
  C11_print_pair_line (bytes "name:\"hello brave new world, hello\"")
    [(bytes "name", bytes "hello brave new world, hello")] Outcome.done
    (bytes "name", bytes "hello brave new world, hello") (by decide) (by decide)

/-- C12: leading and trailing whitespace is ignored.  For every buffer `b` and
all runs `w1`, `w2` of space, tab, CR and LF bytes, decoding `w1 ++ b ++ w2` yields
the same pairs and the same outcome (success, key error, or value error naming
the same key) as decoding `b`. -/
theorem C12_outer_whitespace_ignored (b w1 w2 : List Nat) (hw1 : ∀ c ∈ w1, IsWs c)
    (hw2 : ∀ c ∈ w2, IsWs c) : decode (w1 ++ b ++ w2) = decode b := by
  rw [List.append_assoc, decode_skip_ws w1 _ hw1, decode_append_ws b w2 hw2]

/-- C12 at `a:1 b:"x` between a tab and CR LF. -/
theorem C12_outer_whitespace_ignored_witness :
    decode ([9] ++ bytes "a:1 b:\"x" ++ [13, 10]) = decode (bytes "a:1 b:\"x") :=
  C12_outer_whitespace_ignored (bytes "a:1 b:\"x") [9] [13, 10] (by decide) (by decide)

/-- C13: the cursor only moves forward and stays inside the buffer.  From every
cursor `p`, each of `skip_ws`, `parse_key` and `parse_value`, whatever it returns,
leaves a cursor reached from `p` by stepping over bytes none of which is NUL: its
offset from `p` is at least 0 and at most the offset of the terminator (the first
NUL at or after `p`).  The keys and values emitted for a buffer lie in it one
after the other, without overlap. -/
theorem C13_cursor_forward (p key val : List Nat) (ps : List (List Nat × List Nat))
    (o : Outcome) (h : decode p = some (ps, o)) :
    (Forward p (skip_ws p) ∧ (skip_ws p).length ≤ p.length ∧
      p.length - (skip_ws p).length ≤ (beforeNul p).length) ∧
    (Forward p (parse_key p key 256).2.1 ∧ (parse_key p key 256).2.1.length ≤ p.length ∧
      p.length - (parse_key p key 256).2.1.length ≤ (beforeNul p).length) ∧
    (Forward p (parse_value p val 2048).2.1 ∧
      (parse_value p val 2048).2.1.length ≤ p.length ∧
      p.length - (parse_value p val 2048).2.1.length ≤ (beforeNul p).length) ∧
    InOrder (spans ps) p :=
  ⟨⟨skip_ws_forward p, (skip_ws_forward p).length_le⟩,
   ⟨parse_key_forward p key 256, (parse_key_forward p key 256).length_le⟩,
   ⟨parse_value_forward p val 2048, (parse_value_forward p val 2048).length_le⟩,
   decode_inOrder (p.length + 1) p (Nat.lt_succ_self _) ps o h⟩

/-- C13 at the buffer ` a:1 b:"x y"`. -/
theorem C13_cursor_forward_witness :
    (Forward (bytes " a:1 b:\"x y\"") (skip_ws (bytes " a:1 b:\"x y\"")) ∧
      (skip_ws (bytes " a:1 b:\"x y\"")).length ≤ (bytes " a:1 b:\"x y\"").length ∧
      (bytes " a:1 b:\"x y\"").length - (skip_ws (bytes " a:1 b:\"x y\"")).length ≤
        (beforeNul (bytes " a:1 b:\"x y\"")).length) ∧
    (Forward (bytes " a:1 b:\"x y\"") (parse_key (bytes " a:1 b:\"x y\"") [] 256).2.1 ∧
      (parse_key (bytes " a:1 b:\"x y\"") [] 256).2.1.length ≤
        (bytes " a:1 b:\"x y\"").length ∧
      (bytes " a:1 b:\"x y\"").length -
          (parse_key (bytes " a:1 b:\"x y\"") [] 256).2.1.length ≤
        (beforeNul (bytes " a:1 b:\"x y\"")).length) ∧
    (Forward (bytes " a:1 b:\"x y\"") (parse_value (bytes " a:1 b:\"x y\"") [] 2048).2.1 ∧
      (parse_value (bytes " a:1 b:\"x y\"") [] 2048).2.1.length ≤
        (bytes " a:1 b:\"x y\"").length ∧
      (bytes " a:1 b:\"x y\"").length -
          (parse_value (bytes " a:1 b:\"x y\"") [] 2048).2.1.length ≤
        (beforeNul (bytes " a:1 b:\"x y\"")).length) ∧
    InOrder (spans [(bytes "a", bytes "1"), (bytes "b", bytes "x y")])
      (bytes " a:1 b:\"x y\"") :=
  C13_cursor_forward (bytes " a:1 b:\"x y\"") [] []
    [(bytes "a", bytes "1"), (bytes "b", bytes "x y")] Outcome.done (by decide)

/-- C14: `parse_value` reports a malformed value (returns a negative code) if
and only if, after skipping whitespace, either the buffer is exhausted (the byte
under the cursor is the terminating NUL) or that byte is `'"'` and no further
`'"'` occurs before the end of the buffer (the next NUL).  Consequently the guard
`len == 0` of the unquoted branch is unreachable: when that branch is taken the
scanned length `*p - start` is not 0. -/
theorem C14_value_error_iff (p val : List Nat) :
    ((parse_value p val 2048).1 < 0 ↔
      cur (skip_ws p) = 0 ∨
        (cur (skip_ws p) = 34 ∧ 34 ∉ beforeNul (skip_ws p).tail)) ∧
    (cur (skip_ws p) ≠ 0 → cur (skip_ws p) ≠ 34 →
      (skip_ws p).length - (token_scan (skip_ws p)).length ≠ 0) := by
  rcases value_shape p with ⟨w, s, hp, hw, h0⟩ | ⟨w, q, r, hp, hw, hq, hr⟩ |
    ⟨w, t, r, hp, hw, ht, ht0, h34, hr⟩
  · have hs : skip_ws p = s := by
      rw [hp, skip_ws_append_ws w _ hw]
      exact skip_ws_of_not_ws _ (by rw [h0]; exact not_isWs_zero)
    rw [hs]
    refine ⟨?_, fun h => absurd h0 h⟩
    rw [hp, parse_value_compute0 w s val 2048 hw h0]
    exact ⟨fun _ => Or.inl h0, fun _ => by simp⟩
  · have hs : skip_ws p = 34 :: (q ++ r) := by
      rw [hp, skip_ws_append_ws w _ hw]
      exact skip_ws_of_not_ws _ (by rw [cur_cons]; decide)
    rw [hs, cur_cons, List.tail_cons]
    refine ⟨?_, fun _ h => absurd rfl h⟩
    rw [hp, parse_value_compute_quoted w q r val 2048 hw hq hr,
      beforeNul_append_of_no_nul q r (fun c hc => (hq c hc).1)]
    by_cases h1 : cur r ≠ 34
    · rw [if_pos h1]
      have hr0 : cur r = 0 := by
        by_contra h; exact hr ⟨h, h1⟩
      refine ⟨fun _ => Or.inr ⟨rfl, ?_⟩, fun _ => by simp⟩
      rw [beforeNul_of_cur_zero hr0, List.append_nil]
      intro hm
      exact (hq 34 hm).2 rfl
    · rw [if_neg h1]
      have h2 : r = 34 :: r.tail := cur_eq_cons (not_not.1 h1) (by decide)
      constructor
      · intro h; simp at h
      · intro h
        rcases h with h | ⟨_, h⟩
        · exact absurd h (by decide)
        · exfalso
          apply h
          rw [h2, beforeNul_cons_ne _ (by decide)]
          exact List.mem_append_right _ (List.mem_cons_self _ _)
  · have hcur : cur (t ++ r) = cur t := cur_append_of_ne_nil r ht0
    have htb : TokByte (cur t) := ht _ (cur_mem ht0)
    have hs : skip_ws p = t ++ r := by
      rw [hp, skip_ws_append_ws w _ hw]
      exact skip_ws_of_not_ws _ (by rw [hcur]; exact htb.2)
    rw [hs, hcur]
    constructor
    · rw [hp, parse_value_unquoted_success w t r val 2048 hw ht ht0 h34 hr]
      constructor
      · intro h; simp at h
      · intro h
        rcases h with h | ⟨h, _⟩
        · exact absurd h htb.1
        · exact absurd h h34
    · intro _ _
      rw [token_scan_append t r ht hr, length_append_sub]
      exact fun e => ht0 (List.eq_nil_of_length_eq_zero e)

/-- C14 at the cursor ` x y`, where the unquoted branch is taken (no error is
reported and the scanned length is not 0), and at ` "x y`, an unterminated
quote. -/
theorem C14_value_error_iff_witness :
    ¬ ((parse_value (bytes " x y") [] 2048).1 < 0) ∧
      (skip_ws (bytes " x y")).length - (token_scan (skip_ws (bytes " x y"))).length ≠ 0 ∧
      (parse_value (bytes " \"x y") [] 2048).1 < 0 :=
  ⟨fun h => absurd ((C14_value_error_iff (bytes " x y") []).1.1 h) (by decide),
   (C14_value_error_iff (bytes " x y") []).2 (by decide) (by decide),
   (C14_value_error_iff (bytes " \"x y") []).1.2 (Or.inr ⟨by decide, by decide⟩)⟩

/-- C15: whitespace between `':'` and the value is skipped, whitespace between
the key and `':'` is an error.  For every valid key `k`, every run `w` of
whitespace and every remainder `r`, decoding `k:` ++ `w` ++ `r` yields the same
pairs and outcome as decoding `k:` ++ `r`; and when `w` is not empty, decoding
`k` ++ `w` ++ `:` ++ `r` yields no pair and a key-format error. -/
theorem C15_whitespace_around_colon (k w r : List Nat) (hk : ValidKey k)
    (hw : ∀ c ∈ w, IsWs c) :
    decode (k ++ 58 :: (w ++ r)) = decode (k ++ 58 :: r) ∧
      (w ≠ [] → decode (k ++ (w ++ 58 :: r)) = some ([], Outcome.invalidKey)) := by
  have hkey : ∀ x, parse_key (k ++ 58 :: x) [] 256 = (1, x, k) := by
    intro x
    have := parse_key_success [] k x [] 256 (by simp) hk.2.2 hk.ne_nil
      (by have := hk.2.1; omega)
    rwa [List.nil_append] at this
  have hval := parse_value_skip_ws w r [] 2048 hw
  constructor
  · rcases parse_value_cases r [] 2048 with ⟨r2, hv⟩ | ⟨_, q, r2, _, _, _, hv⟩ |
      ⟨_, t, r2, _, _, _, _, _, _, hv⟩
    · rw [decode_invalidValue (hkey _) (hval.trans hv), decode_invalidValue (hkey _) hv]
    · rw [decode_pair (hkey _) (hval.trans hv), decode_pair (hkey _) hv]
    · rw [decode_pair (hkey _) (hval.trans hv), decode_pair (hkey _) hv]
  · intro hw0
    have hc : cur (w ++ 58 :: r) = cur w := cur_append_of_ne_nil _ hw0
    have hws : IsWs (cur w) := hw _ (cur_mem hw0)
    have := parse_key_no_colon [] k (w ++ 58 :: r) [] 256 (by simp) hk.2.2 hk.ne_nil
      (by rw [hc]; exact hws.not_keyByte)
      (by rw [hc]; intro e; rw [e] at hws; exact absurd hws (by decide))
    rw [List.nil_append] at this
    exact decode_invalidKey this

/-- C15 at `a:`, two spaces and a tab, `1 b:2`, and at `a`, a space, `:1`. -/
theorem C15_whitespace_around_colon_witness :
    decode (bytes "a" ++ 58 :: ([32, 32, 9] ++ bytes "1 b:2")) =
        decode (bytes "a" ++ 58 :: bytes "1 b:2") ∧
      decode (bytes "a" ++ ([32, 32, 9] ++ 58 :: bytes "1 b:2")) =
        some ([], Outcome.invalidKey) :=
  ⟨(C15_whitespace_around_colon (bytes "a") [32, 32, 9] (bytes "1 b:2") (by decide)
      (by decide)).1,
   (C15_whitespace_around_colon (bytes "a") [32, 32, 9] (bytes "1 b:2") (by decide)
      (by decide)).2 (by decide)⟩

/-- C16: `skip_ws` never fails and leaves the cursor at the first byte at or
after it that is not space (32), tab (9), LF (10) or CR (13), the terminating NUL
included: the bytes stepped over are all among these four and the byte it stops at
is not.  It is a no-op when the byte under the cursor is not one of the four; in
particular vertical tab (11) and form feed (12) are not skipped, and the key and
value scans take them as content. -/
theorem C16_skip_ws_spec (p r : List Nat) :
    (∃ w, p = w ++ skip_ws p ∧ (∀ c ∈ w, c = 32 ∨ c = 9 ∨ c = 10 ∨ c = 13) ∧
      ¬ (cur (skip_ws p) = 32 ∨ cur (skip_ws p) = 9 ∨ cur (skip_ws p) = 10 ∨
        cur (skip_ws p) = 13)) ∧
    (¬ (cur p = 32 ∨ cur p = 9 ∨ cur p = 10 ∨ cur p = 13) → skip_ws p = p) ∧
    skip_ws (11 :: r) = 11 :: r ∧ skip_ws (12 :: r) = 12 :: r ∧
    decode [11, 58, 12] = some ([([11], [12])], Outcome.done) := by
  refine ⟨skip_ws_decomp p, skip_ws_of_not_ws p, ?_, ?_, by decide⟩
  · exact skip_ws_of_not_ws _ (by rw [cur_cons]; decide)
  · exact skip_ws_of_not_ws _ (by rw [cur_cons]; decide)

/-- C16 at the cursor `x y`, where `skip_ws` is a no-op. -/
theorem C16_skip_ws_spec_witness : skip_ws (bytes "x y") = bytes "x y" :=
  (C16_skip_ws_spec (bytes "x y") []).2.1 (by decide)

/-- C17: an empty key.  For every buffer whose first byte after optional leading
whitespace is `':'`, decoding yields no pair and a key-format error; and whenever,
after `n` rounds that emitted the pairs `ps`, the pair loop is at a cursor whose
first byte after optional whitespace is `':'`, decoding of the buffer yields `ps`
and a key-format error. -/
theorem C17_empty_key (w r : List Nat) (hw : ∀ c ∈ w, IsWs c) :
    decode (w ++ 58 :: r) = some ([], Outcome.invalidKey) ∧
      ∀ n buf ps, rounds n buf = some (ps, w ++ 58 :: r) →
        decode buf = some (ps, Outcome.invalidKey) := by
  have h := decode_invalidKey (parse_key_empty_key w r [] 256 hw)
  refine ⟨h, ?_⟩
  intro n buf ps hr
  have := rounds_decode n buf ps _ hr [] Outcome.invalidKey h
  rwa [List.append_nil] at this

/-- C17 at ` :x` and at `a:1 b:2 :x`, where the `':'` is met in the third
round. -/
theorem C17_empty_key_witness :
    decode ([32] ++ 58 :: bytes "x") = some ([], Outcome.invalidKey) ∧
      decode (bytes "a:1 b:2 :x") =
        some ([(bytes "a", bytes "1"), (bytes "b", bytes "2")], Outcome.invalidKey) :=
  ⟨(C17_empty_key [32] (bytes "x") (by decide)).1,
   (C17_empty_key [32] (bytes "x") (by decide)).2 2 (bytes "a:1 b:2 :x")
      [(bytes "a", bytes "1"), (bytes "b", bytes "2")] (by decide)⟩

/-- C18: decoding terminates on every buffer, and a buffer of `n` bytes yields
`p` pairs with `3 * p ≤ n`, because every round that emits a pair (a successful
`parse_key` followed by a successful `parse_value`) moves the cursor by at least
3 bytes. -/
theorem C18_decode_terminates (buf : List Nat) :
    (∃ ps o, decode buf = some (ps, o) ∧ 3 * ps.length ≤ buf.length) ∧
      ∀ p1 k p2 v, parse_key buf [] 256 = (1, p1, k) →
        parse_value p1 [] 2048 = (1, p2, v) → p2.length + 3 ≤ buf.length := by
  constructor
  · obtain ⟨res, hres⟩ := decode_isSome buf
    obtain ⟨ps, o⟩ := res
    exact ⟨ps, o, hres, decode_pairs_bound (buf.length + 1) buf (Nat.lt_succ_self _) ps o hres⟩
  · intro p1 k p2 v h hv
    exact round_advance h hv

/-- C18 at `a:1 b:2`: two pairs for 7 bytes, and the first round moves the
cursor from 7 remaining bytes to 4. -/
theorem C18_decode_terminates_witness :
    (∃ ps o, decode (bytes "a:1 b:2") = some (ps, o) ∧
        3 * ps.length ≤ (bytes "a:1 b:2").length) ∧
      (bytes " b:2").length + 3 ≤ (bytes "a:1 b:2").length :=
  ⟨(C18_decode_terminates (bytes "a:1 b:2")).1,
   (C18_decode_terminates (bytes "a:1 b:2")).2 (bytes "1 b:2") (bytes "a") (bytes " b:2")
      (bytes "1") (by decide) (by decide)⟩

/-- C19: a zero byte ends the datagram.  For every payload `b`, decoding `b`
yields the same pairs and the same outcome as decoding the bytes of `b` before its
first NUL; so two payloads that agree up to their first NUL decode alike, whatever
follows it.  For instance `a:1`, NUL, `b` yields the pair `("a", "1")` and no
error. -/
theorem C19_nul_ends_datagram (b : List Nat) :
    decode b = decode (beforeNul b) ∧
      (∀ b2, beforeNul b2 = beforeNul b → decode b2 = decode b) ∧
      decode (bytes "a:1" ++ 0 :: bytes "b") = some ([(bytes "a", bytes "1")], Outcome.done) := by
  refine ⟨(decode_beforeNul b).symm, ?_, by decide⟩
  intro b2 h
  rw [← decode_beforeNul b2, h, decode_beforeNul b]

/-- C19 at `a:1`, NUL, `b:2` and `a:1`, NUL, `"`: both decode as `a:1`. -/
theorem C19_nul_ends_datagram_witness :
    decode (bytes "a:1" ++ 0 :: bytes "\"") = decode (bytes "a:1" ++ 0 :: bytes "b:2") :=
  (C19_nul_ends_datagram (bytes "a:1" ++ 0 :: bytes "b:2")).2.1
    (bytes "a:1" ++ 0 :: bytes "\"") (by decide)

/-- C20 (as amended): no separator is required after a quoted value, and values
longer than 2047 bytes are cut.  For all valid keys `k1`, `k2`, every quoted
content `q` without `'"'` and NUL and every valid unquoted value `v`, decoding
`k1:"q"k2:v` yields the two pairs `(k1, q')` and `(k2, v)` and no error, where
`q'` is the first 2047 bytes of `q` (`q` itself when it has at most 2047 bytes);
whereas for valid unquoted values `v1`, `v2`, decoding `k1:v1k2:v2` yields the
single pair `(k1, m)` and no error, where `m` is the first 2047 bytes of
`v1k2:v2`. -/
theorem C20_separator_after_value (k1 k2 q v v1 v2 : List Nat) (hk1 : ValidKey k1)
    (hk2 : ValidKey k2) (hq : ∀ c ∈ q, QuotByte c) (hv : ValidUnquoted v)
    (hv1 : ValidUnquoted v1) (hv2 : ValidUnquoted v2) :
    decode (k1 ++ 58 :: 34 :: (q ++ 34 :: (k2 ++ 58 :: v))) =
        some ([(k1, q.take 2047), (k2, v)], Outcome.done) ∧
      (q.length ≤ 2047 → q.take 2047 = q) ∧
      decode (k1 ++ 58 :: (v1 ++ (k2 ++ 58 :: v2))) =
        some ([(k1, (v1 ++ (k2 ++ 58 :: v2)).take 2047)], Outcome.done) := by
  refine ⟨decode_quoted_then_token k1 k2 q v hk1 hk2 hq hv, List.take_of_length_le, ?_⟩
  have hm : ∀ c ∈ v1 ++ (k2 ++ 58 :: v2), TokByte c := by
    intro c hc
    rcases List.mem_append.1 hc with hc | hc
    · exact hv1.2.2.1 c hc
    · rcases List.mem_append.1 hc with hc | hc
      · exact tokByte_of_keyByte (hk2.2.2 c hc)
      · rcases List.mem_cons.1 hc with hc | hc
        · rw [hc]; decide
        · exact hv2.2.2.1 c hc
  have hm0 : v1 ++ (k2 ++ 58 :: v2) ≠ [] := by
    intro e; exact validUnquoted_ne_nil hv1 (List.append_eq_nil.1 e).1
  have hc : cur (v1 ++ (k2 ++ 58 :: v2)) ≠ 34 := by
    rw [cur_append_of_ne_nil _ (validUnquoted_ne_nil hv1)]; exact hv1.2.2.2
  have h := decode_unquoted_token k1 (v1 ++ (k2 ++ 58 :: v2)) [] hk1 hm hm0 hc (by decide)
  rw [List.append_nil, take_vlen_eq_take, decode_nil] at h
  rw [h]
  rfl

/-- C20 (as amended) at `a:"x y"b:2` and at `a:1b:2`. -/
theorem C20_separator_after_value_witness :
    decode (bytes "a:\"x y\"b:2") =
        some ([(bytes "a", (bytes "x y").take 2047), (bytes "b", bytes "2")], Outcome.done) ∧
      (bytes "x y").take 2047 = bytes "x y" ∧
      decode (bytes "a:1b:2") = some ([(bytes "a", (bytes "1b:2").take 2047)], Outcome.done) :=
  ⟨(C20_separator_after_value (bytes "a") (bytes "b") (bytes "x y") (bytes "2") (bytes "1")
      (bytes "2") (by decide) (by decide) (by decide) (by decide) (by decide) (by decide)).1,
   (C20_separator_after_value (bytes "a") (bytes "b") (bytes "x y") (bytes "2") (bytes "1")
      (bytes "2") (by decide) (by decide) (by decide) (by decide) (by decide)
      (by decide)).2.1 (by decide),
   (C20_separator_after_value (bytes "a") (bytes "b") (bytes "x y") (bytes "2") (bytes "1")
      (bytes "2") (by decide) (by decide) (by decide) (by decide) (by decide)
      (by decide)).2.2⟩

/-- C20 as stated fails: with a quoted content of 2048 bytes `x`, decoding
`a:"x...x"b:2` emits for `a` only the first 2047 bytes, not the content. -/
theorem C20_counterexample :
    decode (bytes "a" ++ 58 :: 34 ::
        (List.replicate 2048 120 ++ 34 :: (bytes "b" ++ 58 :: bytes "2"))) =
        some ([(bytes "a", (List.replicate 2048 120).take 2047), (bytes "b", bytes "2")],
          Outcome.done) ∧
      decode (bytes "a" ++ 58 :: 34 ::
        (List.replicate 2048 120 ++ 34 :: (bytes "b" ++ 58 :: bytes "2"))) ≠
        some ([(bytes "a", List.replicate 2048 120), (bytes "b", bytes "2")], Outcome.done) := by
  have h := decode_quoted_then_token (bytes "a") (bytes "b") (List.replicate 2048 120)
    (bytes "2") (by decide) (by decide) (quotByte_of_mem_replicate 2048) (by decide)
  refine ⟨h, ?_⟩
  rw [h]
  intro e
  simp only [Option.some.injEq, Prod.mk.injEq, List.cons.injEq, and_true, true_and] at e
  have hl := congrArg List.length e
  rw [List.length_take, List.length_replicate] at hl
  omega

end Server
